import Mathlib

/-!
# Quadtree image compression

A shallow embedding of `quadtree.h` / `quadtree.cpp`: construction of the tree from an
image, pixel lookup, decompression, clockwise rotation, pruning, the simulated prune
size and the binary search for the ideal tolerance.

Conventions of the embedding.

* C++ `int` values (coordinates, resolutions, tolerances, leaf counts) are `Int`; C++ `/`
  on `int` truncates toward zero and is `Int.tdiv`.
* A colour channel is an unsigned 8-bit value, `Fin 256`.  Channel arithmetic in the
  source is done in `int` after promotion, so sums are taken over `Nat`/`Int`, and a
  store back into a channel is the conversion `toChannel` (reduction modulo 256).
* The source mutates nodes through pointers; here every helper returns the new subtree.
* Every operation of the class creates or deletes the four children of a node together,
  so a node has no child or all four: the two constructors of `QuadtreeNode`.
-/

/-- Colour of one pixel, as the source reads it: the channels `red`, `green` and `blue`
of `RGBAPixel`, each an unsigned 8-bit value. The declaration (png.h) is not among the
sources; the three channels are the ones the source and the spec name. -/
structure RGBAPixel where
  red : Fin 256
  green : Fin 256
  blue : Fin 256
deriving DecidableEq

/-- Modelled from the spec: the colour built by the default constructor `RGBAPixel()`,
whose definition (png.h) is missing; the spec gives it as the all-zero colour. -/
def defaultPixel : RGBAPixel := ⟨0, 0, 0⟩

/-- Image capability used by the tree (png.h is missing): a width, a height and a colour
at every coordinate. `pixel x y` stands for `*image(x, y)`. -/
structure PNG where
  width : Int
  height : Int
  pixel : Int → Int → RGBAPixel

/-- Modelled from the spec: `PNG(width, height)`, a fresh image of the given size; its
pixels hold the default colour until they are written. -/
def PNG.blank (width height : Int) : PNG := ⟨width, height, fun _ _ => defaultPixel⟩

/-- Modelled from the spec: `PNG()`, the default empty image returned for an empty tree. -/
def PNG.empty : PNG := PNG.blank 0 0

/-- The assignment `*retval(x, y) = c`. -/
def PNG.set (img : PNG) (x y : Int) (c : RGBAPixel) : PNG :=
  { img with pixel := fun a b => if a = x ∧ b = y then c else img.pixel a b }

/-- A node of the tree: either childless, or with its four children `nwChild`, `neChild`,
`swChild`, `seChild`; both carry `element`, `x`, `y` and `resolution`. -/
inductive QuadtreeNode where
  | leaf (element : RGBAPixel) (x y resolution : Int)
  | node (nwChild neChild swChild seChild : QuadtreeNode)
      (element : RGBAPixel) (x y resolution : Int)
deriving DecidableEq

/-- The tree object: `root` is `none` for the empty tree (`root == NULL`). -/
structure Quadtree where
  root : Option QuadtreeNode
deriving DecidableEq

/-- Conversion of an `int` value to an unsigned 8-bit channel on assignment. -/
def toChannel (v : Nat) : Fin 256 := ⟨v % 256, Nat.mod_lt v (by decide)⟩

/-- The colour stored in a parent: each channel is `(nw + ne + sw + se) / 4`, computed in
`int` and stored into the channel (buildTree lines 112-123, prune lines 309-315). -/
def averageColor (nw ne sw se : RGBAPixel) : RGBAPixel :=
  { red := toChannel ((nw.red.val + ne.red.val + sw.red.val + se.red.val) / 4)
    green := toChannel ((nw.green.val + ne.green.val + sw.green.val + se.green.val) / 4)
    blue := toChannel ((nw.blue.val + ne.blue.val + sw.blue.val + se.blue.val) / 4) }

/-- The difference of two colours as `checkTolerance` computes it:
`(r2-r1)^2 + (g2-g1)^2 + (b2-b1)^2` in `int`. -/
def colorDiff (other root : RGBAPixel) : Int :=
  let red := ((other.red.val : Int) - root.red.val) * ((other.red.val : Int) - root.red.val)
  let blue := ((other.blue.val : Int) - root.blue.val) * ((other.blue.val : Int) - root.blue.val)
  let green :=
    ((other.green.val : Int) - root.green.val) * ((other.green.val : Int) - root.green.val)
  red + green + blue

namespace QuadtreeNode

/-- The field `element`. -/
def element : QuadtreeNode → RGBAPixel
  | leaf e _ _ _ => e
  | node _ _ _ _ e _ _ _ => e

/-- The field `x`. -/
def x : QuadtreeNode → Int
  | leaf _ x _ _ => x
  | node _ _ _ _ _ x _ _ => x

/-- The field `y`. -/
def y : QuadtreeNode → Int
  | leaf _ _ y _ => y
  | node _ _ _ _ _ _ y _ => y

/-- The field `resolution`. -/
def resolution : QuadtreeNode → Int
  | leaf _ _ _ r => r
  | node _ _ _ _ _ _ _ r => r

/-- The helper `buildTree(source, resolution, root)` for a node created at `(x, y)` with
side `resolution`. The source recursion does not end when `resolution < 1`; the embedding
counts the nesting of calls in `fuel` and gives `none` when it is used up. -/
def buildTree (source : PNG) : Nat → Int → Int → Int → Option QuadtreeNode
  | 0, _, _, _ => none
  | fuel + 1, resolution, x, y =>
    if resolution = 1 then
      some (leaf (source.pixel x y) x y resolution)
    else do
      let nw ← buildTree source fuel (resolution.tdiv 2) x y
      let ne ← buildTree source fuel (resolution.tdiv 2) (x + resolution.tdiv 2) y
      let sw ← buildTree source fuel (resolution.tdiv 2) x (y + resolution.tdiv 2)
      let se ← buildTree source fuel (resolution.tdiv 2)
        (x + resolution.tdiv 2) (y + resolution.tdiv 2)
      some (node nw ne sw se
        (averageColor nw.element ne.element sw.element se.element) x y resolution)

/-- The helper `range(x, y, root)`: whether `(x, y)` lies in the square of `root`. -/
def range (x y : Int) (root : QuadtreeNode) : Bool :=
  let xr := root.x + root.resolution
  let yr := root.y + root.resolution
  (decide (x ≥ root.x) && decide (x < xr)) && (decide (y ≥ root.y) && decide (y < yr))

/-- The helper `getPixel(x, y, root)`. -/
def getPixel (x y : Int) : QuadtreeNode → RGBAPixel
  | leaf e _ _ _ => e
  | node nw ne sw se e nx ny r =>
    if nx = x ∧ ny = y ∧ r = 1 then e
    else if range x y nw then getPixel x y nw
    else if range x y ne then getPixel x y ne
    else if range x y sw then getPixel x y sw
    else getPixel x y se

/-- The helper `clockwiseRotate(root)`, for a node whose caller has just stored `(x, y)`
as its origin: the parent writes the origins of its children (lines 247-257) before it
recurses into them, so the recursion receives each child with its new origin. -/
def clockwiseRotate : QuadtreeNode → Int → Int → QuadtreeNode
  | leaf e _ _ r, x, y => leaf e x y r
  | node nw ne sw se e _ _ r, x, y =>
    node (clockwiseRotate sw x y)
      (clockwiseRotate nw (x + r.tdiv 2) y)
      (clockwiseRotate se x (y + r.tdiv 2))
      (clockwiseRotate ne (x + r.tdiv 2) (y + r.tdiv 2))
      e x y r

/-- The helper `checkTolerance(root, other, tolerance)`; only the colour of `root` is
read, so it is passed as `rootElement`. -/
def checkTolerance (rootElement : RGBAPixel) (tolerance : Int) : QuadtreeNode → Bool
  | leaf e _ _ _ => decide (colorDiff e rootElement ≤ tolerance)
  | node nw ne sw se _ _ _ _ =>
    checkTolerance rootElement tolerance nw && checkTolerance rootElement tolerance ne &&
    checkTolerance rootElement tolerance sw && checkTolerance rootElement tolerance se

/-- The helper `prune(root, tolerance)`. -/
def prune (tolerance : Int) : QuadtreeNode → QuadtreeNode
  | leaf e x y r => leaf e x y r
  | node nw ne sw se e x y r =>
    if checkTolerance e tolerance (node nw ne sw se e x y r) then
      leaf (averageColor nw.element ne.element sw.element se.element) x y r
    else
      node (prune tolerance nw) (prune tolerance ne) (prune tolerance sw)
        (prune tolerance se) e x y r

/-- The helper `pruneSize(root, tolerance)`. -/
def pruneSize (tolerance : Int) : QuadtreeNode → Int
  | leaf _ _ _ _ => 1
  | node nw ne sw se e x y r =>
    if checkTolerance e tolerance (node nw ne sw se e x y r) then 1
    else pruneSize tolerance nw + pruneSize tolerance ne + pruneSize tolerance sw +
      pruneSize tolerance se

end QuadtreeNode

namespace Quadtree

/-- The public `buildTree(source, resolution)`: the old tree is cleared and a root is
created at `(0, 0)`. The result is `none` when the source recursion does not end; the
nesting of the helper is at most `resolution`, which is the fuel passed. -/
def buildTree (source : PNG) (resolution : Int) : Option Quadtree :=
  (QuadtreeNode.buildTree source resolution.toNat resolution 0 0).map fun r => ⟨some r⟩

/-- The public `getPixel(x, y)`. -/
def getPixel (t : Quadtree) (x y : Int) : RGBAPixel :=
  match t.root with
  | some root =>
    if x ≤ root.resolution ∧ y ≤ root.resolution then root.getPixel x y else defaultPixel
  | none => defaultPixel

/-- The helper `decompress(root, retval)`: the two nested loops over `0 ≤ x, y < res`,
each step writing `getPixel(x, y)` of the whole tree into `retval`. -/
def decompressInto (t : Quadtree) (root : QuadtreeNode) (retval : PNG) : PNG :=
  let res := root.resolution
  (List.range res.toNat).foldl
    (fun img (x : Nat) => (List.range res.toNat).foldl
      (fun img2 (y : Nat) => img2.set x y (t.getPixel x y)) img) retval

/-- The public `decompress()`. -/
def decompress (t : Quadtree) : PNG :=
  match t.root with
  | some root => t.decompressInto root (PNG.blank root.resolution root.resolution)
  | none => PNG.empty

/-- The public `clockwiseRotate()`. -/
def clockwiseRotate (t : Quadtree) : Quadtree :=
  match t.root with
  | some root => ⟨some (root.clockwiseRotate root.x root.y)⟩
  | none => ⟨none⟩

/-- The public `prune(tolerance)`. -/
def prune (t : Quadtree) (tolerance : Int) : Quadtree :=
  match t.root with
  | some root => ⟨some (root.prune tolerance)⟩
  | none => ⟨none⟩

/-- The public `pruneSize(tolerance)`. -/
def pruneSize (t : Quadtree) (tolerance : Int) : Int :=
  match t.root with
  | some root => if tolerance ≥ 0 then root.pruneSize tolerance else 0
  | none => 0

/-- The helper `idealPrune(lower, upper, numLeaves)`: the binary search over tolerances.
Each recursive call lowers `upper`, or keeps `upper` and raises `lower`. -/
def idealPruneBounds (t : Quadtree) (lower upper numLeaves : Int) : Int :=
  if h : lower > upper then lower
  else
    let tol := t.pruneSize ((lower + upper).tdiv 2)
    if tol = numLeaves then
      if tol = t.pruneSize ((lower + upper).tdiv 2 - 1) then
        idealPruneBounds t 0 ((lower + upper).tdiv 2 - 1) numLeaves
      else (lower + upper).tdiv 2
    else if tol > numLeaves then
      idealPruneBounds t ((lower + upper).tdiv 2 + 1) upper numLeaves
    else if tol < numLeaves then
      idealPruneBounds t lower ((lower + upper).tdiv 2 - 1) numLeaves
    else 0
termination_by ((upper + 1).toNat + (-lower).toNat, (upper - lower + 1).toNat)
decreasing_by
  all_goals simp_wf
  all_goals
    have hb : lower + upper - 1 ≤ 2 * (lower + upper).tdiv 2 ∧
        2 * (lower + upper).tdiv 2 ≤ lower + upper + 1 := by
      rcases Int.le_total 0 (lower + upper) with h0 | h0
      · rw [Int.tdiv_eq_ediv h0 (by decide)]; omega
      · have h2 : (lower + upper).tdiv 2 = -((-(lower + upper)) / 2) := by
          rw [← Int.tdiv_eq_ediv (by omega) (by decide), Int.neg_tdiv, Int.neg_neg]
        rw [h2]; omega
  all_goals rw [Prod.lex_def]
  all_goals simp only
  all_goals omega

/-- The public `idealPrune(numLeaves)`. -/
def idealPrune (t : Quadtree) (numLeaves : Int) : Int :=
  match t.root with
  | some _ => t.idealPruneBounds 0 (255 * 255 * 3) numLeaves
  | none => 0

end Quadtree

/-! ## Invariants of the data model -/

namespace QuadtreeNode

/-- The tiling invariant: every side is at least 1, and the four children of a node of
origin `(x, y)` and side `r` have side `r / 2`, which is exactly half of `r`, and the
origins `(x, y)`, `(x + r/2, y)`, `(x, y + r/2)`, `(x + r/2, y + r/2)`. -/
def Tiled : QuadtreeNode → Prop
  | leaf _ _ _ r => 1 ≤ r
  | node nw ne sw se _ x y r =>
    1 ≤ r.tdiv 2 ∧ r = 2 * r.tdiv 2 ∧
    (nw.resolution = r.tdiv 2 ∧ nw.x = x ∧ nw.y = y) ∧
    (ne.resolution = r.tdiv 2 ∧ ne.x = x + r.tdiv 2 ∧ ne.y = y) ∧
    (sw.resolution = r.tdiv 2 ∧ sw.x = x ∧ sw.y = y + r.tdiv 2) ∧
    (se.resolution = r.tdiv 2 ∧ se.x = x + r.tdiv 2 ∧ se.y = y + r.tdiv 2) ∧
    Tiled nw ∧ Tiled ne ∧ Tiled sw ∧ Tiled se

/-- The colour invariant: the colour of every node with children is the channel-wise
truncated average of the colours of its four children. -/
def Averaged : QuadtreeNode → Prop
  | leaf _ _ _ _ => True
  | node nw ne sw se e _ _ _ =>
    e = averageColor nw.element ne.element sw.element se.element ∧
    Averaged nw ∧ Averaged ne ∧ Averaged sw ∧ Averaged se

/-- A well-formed node: the tiling invariant and the colour invariant. -/
def WellFormed (n : QuadtreeNode) : Prop := n.Tiled ∧ n.Averaged

/-- The tiling invariant can be checked by computation. -/
instance decidableTiled : (n : QuadtreeNode) → Decidable n.Tiled
  | leaf _ _ _ r => inferInstanceAs (Decidable (1 ≤ r))
  | node nw ne sw se _ x y r =>
    have := decidableTiled nw
    have := decidableTiled ne
    have := decidableTiled sw
    have := decidableTiled se
    inferInstanceAs (Decidable (1 ≤ r.tdiv 2 ∧ r = 2 * r.tdiv 2 ∧
      (nw.resolution = r.tdiv 2 ∧ nw.x = x ∧ nw.y = y) ∧
      (ne.resolution = r.tdiv 2 ∧ ne.x = x + r.tdiv 2 ∧ ne.y = y) ∧
      (sw.resolution = r.tdiv 2 ∧ sw.x = x ∧ sw.y = y + r.tdiv 2) ∧
      (se.resolution = r.tdiv 2 ∧ se.x = x + r.tdiv 2 ∧ se.y = y + r.tdiv 2) ∧
      Tiled nw ∧ Tiled ne ∧ Tiled sw ∧ Tiled se))

/-- The colour invariant can be checked by computation. -/
instance decidableAveraged : (n : QuadtreeNode) → Decidable n.Averaged
  | leaf _ _ _ _ => inferInstanceAs (Decidable True)
  | node nw ne sw se e _ _ _ =>
    have := decidableAveraged nw
    have := decidableAveraged ne
    have := decidableAveraged sw
    have := decidableAveraged se
    inferInstanceAs (Decidable (e = averageColor nw.element ne.element sw.element se.element ∧
      Averaged nw ∧ Averaged ne ∧ Averaged sw ∧ Averaged se))

/-- Well-formedness of a node can be checked by computation. -/
instance decidableWellFormed (n : QuadtreeNode) : Decidable n.WellFormed :=
  inferInstanceAs (Decidable (n.Tiled ∧ n.Averaged))

/-- The childless nodes below (and including) a node, from northwest to southeast. -/
def leaves : QuadtreeNode → List QuadtreeNode
  | leaf e x y r => [leaf e x y r]
  | node nw ne sw se _ _ _ _ => leaves nw ++ leaves ne ++ leaves sw ++ leaves se

end QuadtreeNode

namespace Quadtree

/-- A well-formed tree: empty, or a well-formed root at origin `(0, 0)`. -/
def WellFormed (t : Quadtree) : Prop :=
  match t.root with
  | some root => root.WellFormed ∧ root.x = 0 ∧ root.y = 0
  | none => True

/-- Well-formedness of a tree can be checked by computation. -/
instance decidableWellFormed (t : Quadtree) : Decidable t.WellFormed :=
  match h : t.root with
  | some root =>
    decidable_of_iff (root.WellFormed ∧ root.x = 0 ∧ root.y = 0) (by simp [WellFormed, h])
  | none => isTrue (by simp [WellFormed, h])

/-- The number of leaves of the tree (0 for the empty tree). -/
def leafCount (t : Quadtree) : Int :=
  match t.root with
  | some root => root.leaves.length
  | none => 0

end Quadtree

/-! ## Further operations and notions of the class -/

/-- The four child slots of a node. -/
inductive Quadrant where
  | nw
  | ne
  | sw
  | se
deriving DecidableEq

/-- The relation "each channel of `e` is the integer-truncated quotient of the sum of the
four children's channel values by 4". -/
def IsAverage (e nw ne sw se : RGBAPixel) : Prop :=
  e.red.val = (nw.red.val + ne.red.val + sw.red.val + se.red.val) / 4 ∧
  e.green.val = (nw.green.val + ne.green.val + sw.green.val + se.green.val) / 4 ∧
  e.blue.val = (nw.blue.val + ne.blue.val + sw.blue.val + se.blue.val) / 4

/-- The relation `IsAverage` can be checked by computation. -/
instance decidableIsAverage (e nw ne sw se : RGBAPixel) : Decidable (IsAverage e nw ne sw se) :=
  inferInstanceAs (Decidable (_ ∧ _ ∧ _))

namespace QuadtreeNode

/-- The constructor `QuadtreeNode(ele, res, xpoint, ypoint)`: a node without children. -/
def new (ele : RGBAPixel) (res xpoint ypoint : Int) : QuadtreeNode :=
  leaf ele xpoint ypoint res

/-- The four assignments `root->nwChild = ...` to `root->seChild = ...`: `root` with the
given children and its own fields unchanged. -/
def setChildren (root nw ne sw se : QuadtreeNode) : QuadtreeNode :=
  node nw ne sw se root.element root.x root.y root.resolution

/-- The helper `copy(root, other, resolution)`: `root` is the node already created for
`other`; its children are created from the fields of the children of `other` and filled
recursively. -/
def copy (root : QuadtreeNode) : QuadtreeNode → Int → QuadtreeNode
  | leaf _ _ _ _, _ => root
  | node nw ne sw se _ _ _ _, resolution =>
    setChildren root
      (copy (new nw.element nw.resolution nw.x nw.y) nw (resolution.tdiv 2))
      (copy (new ne.element ne.resolution ne.x ne.y) ne (resolution.tdiv 2))
      (copy (new sw.element sw.resolution sw.x sw.y) sw (resolution.tdiv 2))
      (copy (new se.element se.resolution se.x se.y) se (resolution.tdiv 2))

/-- The child of a node in a slot (`none` for a childless node). -/
def child : QuadtreeNode → Quadrant → Option QuadtreeNode
  | leaf _ _ _ _, _ => none
  | node nw _ _ _ _ _ _ _, .nw => some nw
  | node _ ne _ _ _ _ _ _, .ne => some ne
  | node _ _ sw _ _ _ _ _, .sw => some sw
  | node _ _ _ se _ _ _ _, .se => some se

/-- The node reached from a node by following a list of slots (`none` when the path
leaves the tree). -/
def descend : QuadtreeNode → List Quadrant → Option QuadtreeNode
  | n, [] => some n
  | n, q :: p =>
    match n.child q with
    | some c => descend c p
    | none => none

/-- Whether a node has children (`nwChild != NULL`). -/
def hasChildren : QuadtreeNode → Bool
  | leaf _ _ _ _ => false
  | node _ _ _ _ _ _ _ _ => true

/-- A property holds at a node and at every node below it. -/
def AllNodes (P : QuadtreeNode → Prop) : QuadtreeNode → Prop
  | leaf e x y r => P (leaf e x y r)
  | node nw ne sw se e x y r =>
    P (node nw ne sw se e x y r) ∧ AllNodes P nw ∧ AllNodes P ne ∧ AllNodes P sw ∧ AllNodes P se

/-- The property `AllNodes P` can be checked by computation when `P` can. -/
instance decidableAllNodes (P : QuadtreeNode → Prop) [DecidablePred P] :
    (n : QuadtreeNode) → Decidable (AllNodes P n)
  | leaf e x y r => inferInstanceAs (Decidable (P (leaf e x y r)))
  | node nw ne sw se e x y r =>
    have := decidableAllNodes P nw
    have := decidableAllNodes P ne
    have := decidableAllNodes P sw
    have := decidableAllNodes P se
    inferInstanceAs (Decidable (P (node nw ne sw se e x y r) ∧
      AllNodes P nw ∧ AllNodes P ne ∧ AllNodes P sw ∧ AllNodes P se))

/-- What the build promises of one node: a childless node has side 1 and the colour of the
source pixel at its origin; a node with children has four children of half its side at
the origins of the four quadrants, and the average colour of its children. -/
def BuiltNode (source : PNG) : QuadtreeNode → Prop
  | leaf e x y r => r = 1 ∧ e = source.pixel x y
  | node nw ne sw se e x y r =>
    (nw.resolution = r.tdiv 2 ∧ nw.x = x ∧ nw.y = y) ∧
    (ne.resolution = r.tdiv 2 ∧ ne.x = x + r.tdiv 2 ∧ ne.y = y) ∧
    (sw.resolution = r.tdiv 2 ∧ sw.x = x ∧ sw.y = y + r.tdiv 2) ∧
    (se.resolution = r.tdiv 2 ∧ se.x = x + r.tdiv 2 ∧ se.y = y + r.tdiv 2) ∧
    IsAverage e nw.element ne.element sw.element se.element

/-- The structure of a built tree: `BuiltNode` at every node. -/
def Built (source : PNG) (n : QuadtreeNode) : Prop := AllNodes (BuiltNode source) n

/-- The invariant of one node with children: its four children have half its side, the
origins of the four quadrants, and their average colour is the colour of the node. A
childless node is not constrained. -/
def ConsistentNode : QuadtreeNode → Prop
  | leaf _ _ _ _ => True
  | node nw ne sw se e x y r =>
    (nw.resolution = r.tdiv 2 ∧ nw.x = x ∧ nw.y = y) ∧
    (ne.resolution = r.tdiv 2 ∧ ne.x = x + r.tdiv 2 ∧ ne.y = y) ∧
    (sw.resolution = r.tdiv 2 ∧ sw.x = x ∧ sw.y = y + r.tdiv 2) ∧
    (se.resolution = r.tdiv 2 ∧ se.x = x + r.tdiv 2 ∧ se.y = y + r.tdiv 2) ∧
    IsAverage e nw.element ne.element sw.element se.element

/-- The invariant `ConsistentNode` can be checked by computation. -/
instance decidableConsistentNode : (n : QuadtreeNode) → Decidable (ConsistentNode n)
  | leaf _ _ _ _ => inferInstanceAs (Decidable True)
  | node nw ne sw se e x y r =>
    inferInstanceAs (Decidable ((nw.resolution = r.tdiv 2 ∧ nw.x = x ∧ nw.y = y) ∧
      (ne.resolution = r.tdiv 2 ∧ ne.x = x + r.tdiv 2 ∧ ne.y = y) ∧
      (sw.resolution = r.tdiv 2 ∧ sw.x = x ∧ sw.y = y + r.tdiv 2) ∧
      (se.resolution = r.tdiv 2 ∧ se.x = x + r.tdiv 2 ∧ se.y = y + r.tdiv 2) ∧
      IsAverage e nw.element ne.element sw.element se.element))

/-- The invariant of a subtree: `ConsistentNode` at every node. -/
def Consistent (n : QuadtreeNode) : Prop := AllNodes ConsistentNode n

/-- The invariant `Consistent` can be checked by computation. -/
instance decidableConsistent (n : QuadtreeNode) : Decidable n.Consistent :=
  inferInstanceAs (Decidable (AllNodes ConsistentNode n))

/-- Every leaf of the subtree of `n` has a colour difference of at most `tolerance` from
the colour of `n`. -/
def WithinTolerance (tolerance : Int) (n : QuadtreeNode) : Prop :=
  ∀ l ∈ n.leaves, colorDiff l.element n.element ≤ tolerance

/-- The condition `WithinTolerance` can be checked by computation. -/
instance decidableWithinTolerance (tolerance : Int) (n : QuadtreeNode) :
    Decidable (n.WithinTolerance tolerance) :=
  inferInstanceAs (Decidable (∀ l ∈ n.leaves, colorDiff l.element n.element ≤ tolerance))

/-- No proper ancestor of the node at path `p` under `root` has all the leaves of its
subtree within the tolerance of its colour. -/
def NoAncestorWithin (tolerance : Int) (root : QuadtreeNode) (p : List Quadrant) : Prop :=
  ∀ (q s : List Quadrant) (a : QuadtreeNode), p = q ++ s → s ≠ [] →
    root.descend q = some a → ¬ a.WithinTolerance tolerance

/-- The source helper `clockwiseRotate(root)` run on a node with its stored origin. -/
def rotateStored (n : QuadtreeNode) : QuadtreeNode := n.clockwiseRotate n.x n.y

/-- The two assignments `child->x = ...; child->y = ...` that a parent makes before it
rotates a child. -/
def setOrigin : QuadtreeNode → Int → Int → QuadtreeNode
  | leaf e _ _ r, x, y => leaf e x y r
  | node nw ne sw se e _ _ r, x, y => node nw ne sw se e x y r

end QuadtreeNode

namespace Quadtree

/-- The default constructor `Quadtree()`: the empty tree, `root = NULL`. -/
def empty : Quadtree := ⟨none⟩

/-- The private `copy(other)`: the tree that `this` holds after the call. -/
def copy (other : Quadtree) : Quadtree :=
  match other.root with
  | none => ⟨none⟩
  | some oroot =>
    let root := QuadtreeNode.new oroot.element oroot.resolution oroot.x oroot.y
    match oroot with
    | .leaf _ _ _ _ => ⟨some root⟩
    | .node _ _ _ _ _ _ _ _ => ⟨some (QuadtreeNode.copy root oroot oroot.resolution)⟩

/-- The invariant of a tree: empty, or `Consistent` from the root. -/
def Consistent (t : Quadtree) : Prop :=
  match t.root with
  | some root => root.Consistent
  | none => True

/-- The invariant of a tree can be checked by computation. -/
instance decidableConsistent (t : Quadtree) : Decidable t.Consistent :=
  match h : t.root with
  | some root => decidable_of_iff root.Consistent (by simp [Consistent, h])
  | none => isTrue (by simp [Consistent, h])

/-- The node reached from the root by a path (`none` for the empty tree). -/
def descend (t : Quadtree) (p : List Quadrant) : Option QuadtreeNode :=
  match t.root with
  | some root => root.descend p
  | none => none

end Quadtree

/-! ## The search of `idealPrune`, call by call -/

namespace Quadtree

/-- The arguments `(lower, upper)` of the recursive call that
`idealPrune(lower, upper, numLeaves)` makes, or `none` when the call returns without
recursion. -/
def idealPruneNext (t : Quadtree) (lower upper numLeaves : Int) : Option (Int × Int) :=
  if lower > upper then none
  else
    let tol := t.pruneSize ((lower + upper).tdiv 2)
    if tol = numLeaves then
      if tol = t.pruneSize ((lower + upper).tdiv 2 - 1) then
        some (0, (lower + upper).tdiv 2 - 1)
      else none
    else if tol > numLeaves then some ((lower + upper).tdiv 2 + 1, upper)
    else if tol < numLeaves then some (lower, (lower + upper).tdiv 2 - 1)
    else none

/-- The helper `idealPrune(lower, upper, numLeaves)` with the nesting of its recursive
calls counted in `fuel`: the result is `none` when the fuel is used up before the search
returns. -/
def idealPruneFuel (t : Quadtree) : Nat → Int → Int → Int → Option Int
  | 0, _, _, _ => none
  | fuel + 1, lower, upper, numLeaves =>
    if lower > upper then some lower
    else
      let tol := t.pruneSize ((lower + upper).tdiv 2)
      if tol = numLeaves then
        if tol = t.pruneSize ((lower + upper).tdiv 2 - 1) then
          idealPruneFuel t fuel 0 ((lower + upper).tdiv 2 - 1) numLeaves
        else some ((lower + upper).tdiv 2)
      else if tol > numLeaves then
        idealPruneFuel t fuel ((lower + upper).tdiv 2 + 1) upper numLeaves
      else if tol < numLeaves then
        idealPruneFuel t fuel lower ((lower + upper).tdiv 2 - 1) numLeaves
      else some 0

/-- The public `idealPrune(numLeaves)` over the fuel-counted helper. -/
def idealPruneWithFuel (t : Quadtree) (fuel : Nat) (numLeaves : Int) : Option Int :=
  match t.root with
  | some _ => t.idealPruneFuel fuel 0 (255 * 255 * 3) numLeaves
  | none => some 0

end Quadtree

/-! ## Sample inputs -/

/-- A 2 × 2 image with four distinct colours. -/
def sampleImage2 : PNG :=
  ⟨2, 2, fun x y => ⟨toChannel (40 * x.toNat), toChannel (90 * y.toNat), 7⟩⟩


/-- The 2 × 2 tree of `sampleImage2`: four unit leaves under an averaged root. -/
def sampleRoot2 : QuadtreeNode :=
  .node (.leaf ⟨0, 0, 7⟩ 0 0 1) (.leaf ⟨40, 0, 7⟩ 1 0 1)
    (.leaf ⟨0, 90, 7⟩ 0 1 1) (.leaf ⟨40, 90, 7⟩ 1 1 1) ⟨20, 45, 7⟩ 0 0 2

/-- The tree object holding `sampleRoot2`. -/
def sampleTree2 : Quadtree := ⟨some sampleRoot2⟩

/-- A 4 × 4 well-formed tree whose northwest quadrant is nearly uniform and whose other
quadrants are not. -/
def sampleRoot4 : QuadtreeNode :=
  .node
    (.node (.leaf ⟨10, 10, 10⟩ 0 0 1) (.leaf ⟨12, 10, 10⟩ 1 0 1)
      (.leaf ⟨10, 12, 10⟩ 0 1 1) (.leaf ⟨12, 12, 10⟩ 1 1 1) ⟨11, 11, 10⟩ 0 0 2)
    (.node (.leaf ⟨0, 0, 0⟩ 2 0 1) (.leaf ⟨200, 0, 0⟩ 3 0 1)
      (.leaf ⟨0, 200, 0⟩ 2 1 1) (.leaf ⟨200, 200, 0⟩ 3 1 1) ⟨100, 100, 0⟩ 2 0 2)
    (.node (.leaf ⟨50, 50, 50⟩ 0 2 1) (.leaf ⟨60, 50, 50⟩ 1 2 1)
      (.leaf ⟨50, 60, 50⟩ 0 3 1) (.leaf ⟨60, 60, 50⟩ 1 3 1) ⟨55, 55, 50⟩ 0 2 2)
    (.node (.leaf ⟨255, 255, 255⟩ 2 2 1) (.leaf ⟨0, 0, 0⟩ 3 2 1)
      (.leaf ⟨0, 0, 0⟩ 2 3 1) (.leaf ⟨255, 255, 255⟩ 3 3 1) ⟨127, 127, 127⟩ 2 2 2)
    ⟨73, 73, 46⟩ 0 0 4

/-- The tree object holding `sampleRoot4`. -/
def sampleTree4 : Quadtree := ⟨some sampleRoot4⟩


/-- A 4 × 4 image: the top-left 2 × 2 block alternates between red 0 and red 20 and the rest
has red 18 (green and blue are 0). -/
def sampleImageStripes : PNG :=
  ⟨4, 4, fun x y => if x < 2 ∧ y < 2 then (if x = 1 then ⟨20, 0, 0⟩ else ⟨0, 0, 0⟩)
    else ⟨18, 0, 0⟩⟩

/-- The tree of `sampleImageStripes`. -/
def sampleRootStripes : QuadtreeNode :=
  .node
    (.node (.leaf ⟨0, 0, 0⟩ 0 0 1) (.leaf ⟨20, 0, 0⟩ 1 0 1)
      (.leaf ⟨0, 0, 0⟩ 0 1 1) (.leaf ⟨20, 0, 0⟩ 1 1 1) ⟨10, 0, 0⟩ 0 0 2)
    (.node (.leaf ⟨18, 0, 0⟩ 2 0 1) (.leaf ⟨18, 0, 0⟩ 3 0 1)
      (.leaf ⟨18, 0, 0⟩ 2 1 1) (.leaf ⟨18, 0, 0⟩ 3 1 1) ⟨18, 0, 0⟩ 2 0 2)
    (.node (.leaf ⟨18, 0, 0⟩ 0 2 1) (.leaf ⟨18, 0, 0⟩ 1 2 1)
      (.leaf ⟨18, 0, 0⟩ 0 3 1) (.leaf ⟨18, 0, 0⟩ 1 3 1) ⟨18, 0, 0⟩ 0 2 2)
    (.node (.leaf ⟨18, 0, 0⟩ 2 2 1) (.leaf ⟨18, 0, 0⟩ 3 2 1)
      (.leaf ⟨18, 0, 0⟩ 2 3 1) (.leaf ⟨18, 0, 0⟩ 3 3 1) ⟨18, 0, 0⟩ 2 2 2)
    ⟨16, 0, 0⟩ 0 0 4

/-- The tree object holding `sampleRootStripes`. -/
def sampleTreeStripes : Quadtree := ⟨some sampleRootStripes⟩

/-! ## Arithmetic of the embedding -/

/-- Bounds of `Int.tdiv _ 2`: truncation moves the half by less than one. -/
theorem tdiv_two_bounds (a : Int) : a - 1 ≤ 2 * a.tdiv 2 ∧ 2 * a.tdiv 2 ≤ a + 1 := by
  rcases Int.le_total 0 a with h | h
  · rw [Int.tdiv_eq_ediv h (by decide)]; omega
  · have h2 : a.tdiv 2 = -((-a) / 2) := by
      rw [← Int.tdiv_eq_ediv (by omega) (by decide), Int.neg_tdiv, Int.neg_neg]
    rw [h2]; omega


/-! ## Decompression writes `getPixel` at every coordinate of the square -/

theorem PNG.fold_set_row (g : Int → Int → RGBAPixel) (x : Int) (a b : Int) :
    ∀ (ys : List Nat) (img : PNG),
      (ys.foldl (fun img2 (y : Nat) => img2.set x y (g x y)) img).pixel a b =
        if a = x ∧ ∃ y ∈ ys, b = (y : Int) then g a b else img.pixel a b := by
  intro ys
  induction ys with
  | nil => intro img; simp
  | cons y ys ih =>
    intro img
    rw [List.foldl_cons, ih]
    by_cases h1 : a = x ∧ ∃ y ∈ ys, b = (y : Int)
    · have h2 : a = x ∧ ∃ z ∈ y :: ys, b = (z : Int) := by
        obtain ⟨ha, z, hz, hb⟩ := h1
        exact ⟨ha, z, List.mem_cons_of_mem _ hz, hb⟩
      rw [if_pos h1, if_pos h2]
    · rw [if_neg h1]
      by_cases h3 : a = x ∧ b = (y : Int)
      · have h2 : a = x ∧ ∃ z ∈ y :: ys, b = (z : Int) :=
          ⟨h3.1, y, List.mem_cons_self _ _, h3.2⟩
        rw [if_pos h2]
        simp [PNG.set, h3.1, h3.2]
      · have h2 : ¬ (a = x ∧ ∃ z ∈ y :: ys, b = (z : Int)) := by
          rintro ⟨ha, z, hz, hb⟩
          rcases List.mem_cons.mp hz with rfl | hz
          · exact h3 ⟨ha, hb⟩
          · exact h1 ⟨ha, z, hz, hb⟩
        rw [if_neg h2]
        simp only [PNG.set]
        rw [if_neg h3]

theorem PNG.fold_set_grid (g : Int → Int → RGBAPixel) (ys : List Nat) (a b : Int) :
    ∀ (xs : List Nat) (img : PNG),
      (xs.foldl (fun img1 (x : Nat) =>
          ys.foldl (fun img2 (y : Nat) => img2.set x y (g x y)) img1) img).pixel a b =
        if (∃ x ∈ xs, a = (x : Int)) ∧ ∃ y ∈ ys, b = (y : Int) then g a b
        else img.pixel a b := by
  intro xs
  induction xs with
  | nil => intro img; simp
  | cons x xs ih =>
    intro img
    rw [List.foldl_cons, ih, PNG.fold_set_row]
    by_cases hy : ∃ y ∈ ys, b = (y : Int)
    · by_cases hx : ∃ z ∈ xs, a = (z : Int)
      · have h2 : (∃ z ∈ x :: xs, a = (z : Int)) := by
          obtain ⟨z, hz, ha⟩ := hx
          exact ⟨z, List.mem_cons_of_mem _ hz, ha⟩
        rw [if_pos ⟨hx, hy⟩, if_pos ⟨h2, hy⟩]
      · rw [if_neg (fun h => hx h.1)]
        by_cases hax : a = (x : Int)
        · rw [if_pos ⟨hax, hy⟩, if_pos ⟨⟨x, List.mem_cons_self _ _, hax⟩, hy⟩]
        · have h2 : ¬ (∃ z ∈ x :: xs, a = (z : Int)) := by
            rintro ⟨z, hz, ha⟩
            rcases List.mem_cons.mp hz with rfl | hz
            · exact hax ha
            · exact hx ⟨z, hz, ha⟩
          rw [if_neg (fun h => hax h.1), if_neg (fun h => h2 h.1)]
    · rw [if_neg (fun h => hy h.2), if_neg (fun h => hy h.2), if_neg (fun h => hy h.2)]

theorem PNG.fold_set_grid_width (g : Int → Int → RGBAPixel) (ys : List Nat) :
    ∀ (xs : List Nat) (img : PNG),
      (xs.foldl (fun img1 (x : Nat) =>
          ys.foldl (fun img2 (y : Nat) => img2.set x y (g x y)) img1) img).width = img.width ∧
      (xs.foldl (fun img1 (x : Nat) =>
          ys.foldl (fun img2 (y : Nat) => img2.set x y (g x y)) img1) img).height = img.height := by
  have row : ∀ (x : Nat) (l : List Nat) (img : PNG),
      (l.foldl (fun img2 (y : Nat) => img2.set x y (g x y)) img).width = img.width ∧
      (l.foldl (fun img2 (y : Nat) => img2.set x y (g x y)) img).height = img.height := by
    intro x l
    induction l with
    | nil => intro img; simp
    | cons y l ih => intro img; rw [List.foldl_cons]; rw [(ih _).1, (ih _).2]; simp [PNG.set]
  intro xs
  induction xs with
  | nil => intro img; simp
  | cons x xs ih =>
    intro img
    rw [List.foldl_cons, (ih _).1, (ih _).2]
    exact row x ys img

namespace Quadtree

theorem decompress_some (t : Quadtree) (root : QuadtreeNode) (h : t.root = some root) :
    t.decompress.width = root.resolution ∧ t.decompress.height = root.resolution ∧
    ∀ x y : Int, 0 ≤ x → x < root.resolution → 0 ≤ y → y < root.resolution →
      t.decompress.pixel x y = t.getPixel x y := by
  have hd : t.decompress =
      t.decompressInto root (PNG.blank root.resolution root.resolution) := by
    simp [decompress, h]
  rw [hd]
  unfold decompressInto
  refine ⟨?_, ?_, ?_⟩
  · rw [(PNG.fold_set_grid_width (fun x y => t.getPixel x y) _ _ _).1]; rfl
  · rw [(PNG.fold_set_grid_width (fun x y => t.getPixel x y) _ _ _).2]; rfl
  · intro x y hx0 hx1 hy0 hy1
    have := PNG.fold_set_grid (fun x y => t.getPixel x y) (List.range root.resolution.toNat)
      x y (List.range root.resolution.toNat) (PNG.blank root.resolution root.resolution)
    simp only at this
    rw [this, if_pos]
    refine ⟨⟨x.toNat, ?_, ?_⟩, ⟨y.toNat, ?_, ?_⟩⟩
    · rw [List.mem_range]; omega
    · omega
    · rw [List.mem_range]; omega
    · omega

end Quadtree

theorem tdiv_two_pow_succ (k : Nat) : ((2 : Int) ^ (k + 1)).tdiv 2 = 2 ^ k := by
  have h : (0 : Int) ≤ 2 ^ (k + 1) := by positivity
  rw [Int.tdiv_eq_ediv h (by decide), pow_succ]
  omega

theorem two_pow_pos_int (k : Nat) : (1 : Int) ≤ 2 ^ k := by
  have : (0 : Int) < 2 ^ k := by positivity
  omega

/-! ## Construction -/

namespace QuadtreeNode

theorem range_iff (x y : Int) (n : QuadtreeNode) :
    range x y n = true ↔
      (n.x ≤ x ∧ x < n.x + n.resolution) ∧ (n.y ≤ y ∧ y < n.y + n.resolution) := by
  simp [range]

/-- With enough fuel the helper `buildTree` returns, for a side `2 ^ k`, a well-formed
node at the requested origin and side whose lookup gives back the source pixel everywhere
in its square. -/
theorem buildTree_pow (source : PNG) :
    ∀ (k fuel : Nat) (x y : Int), k < fuel →
      ∃ n, buildTree source fuel (2 ^ k) x y = some n ∧
        n.x = x ∧ n.y = y ∧ n.resolution = 2 ^ k ∧ n.WellFormed ∧
        ∀ px py : Int, x ≤ px → px < x + 2 ^ k → y ≤ py → py < y + 2 ^ k →
          n.getPixel px py = source.pixel px py := by
  intro k
  induction k with
  | zero =>
    intro fuel x y hf
    obtain ⟨f, rfl⟩ : ∃ f, fuel = f + 1 := ⟨fuel - 1, by omega⟩
    refine ⟨leaf (source.pixel x y) x y 1, by simp [buildTree], rfl, rfl, by simp [resolution],
      ⟨by simp [Tiled], True.intro⟩, ?_⟩
    intro px py h1 h2 h3 h4
    have hx : px = x := by simp at h2; omega
    have hy : py = y := by simp at h4; omega
    simp [getPixel, hx, hy]
  | succ k ih =>
    intro fuel x y hf
    obtain ⟨f, rfl⟩ : ∃ f, fuel = f + 1 := ⟨fuel - 1, by omega⟩
    have hk : k < f := by omega
    have hp := two_pow_pos_int k
    have hne : ¬ ((2 : Int) ^ (k + 1) = 1) := by rw [pow_succ]; omega
    have h22 : (2 : Int) ^ (k + 1) = 2 * 2 ^ k := by rw [pow_succ]; omega
    obtain ⟨nw, hnw, hnwx, hnwy, hnwr, hnwf, hnwp⟩ := ih f x y hk
    obtain ⟨ne, hne1, hnex, hney, hner, hnef, hnep⟩ := ih f (x + 2 ^ k) y hk
    obtain ⟨sw, hsw, hswx, hswy, hswr, hswf, hswp⟩ := ih f x (y + 2 ^ k) hk
    obtain ⟨se, hse, hsex, hsey, hser, hsef, hsep⟩ := ih f (x + 2 ^ k) (y + 2 ^ k) hk
    refine ⟨node nw ne sw se (averageColor nw.element ne.element sw.element se.element)
      x y (2 ^ (k + 1)), ?_, rfl, rfl, rfl, ⟨?_, ?_⟩, ?_⟩
    · rw [buildTree, if_neg hne, tdiv_two_pow_succ, hnw, hne1, hsw, hse]
      rfl
    · show 1 ≤ ((2 : Int) ^ (k + 1)).tdiv 2 ∧ _
      rw [tdiv_two_pow_succ]
      exact ⟨hp, h22, ⟨hnwr, hnwx, hnwy⟩, ⟨hner, hnex, hney⟩, ⟨hswr, hswx, hswy⟩,
        ⟨hser, hsex, hsey⟩, hnwf.1, hnef.1, hswf.1, hsef.1⟩
    · exact ⟨rfl, hnwf.2, hnef.2, hswf.2, hsef.2⟩
    · intro px py h1 h2 h3 h4
      rw [getPixel, if_neg (fun h => hne h.2.2)]
      by_cases c1 : range px py nw = true
      · rw [if_pos c1]
        rw [range_iff, hnwx, hnwy, hnwr] at c1
        exact hnwp px py c1.1.1 c1.1.2 c1.2.1 c1.2.2
      · rw [if_neg c1]
        rw [range_iff, hnwx, hnwy, hnwr] at c1
        by_cases c2 : range px py ne = true
        · rw [if_pos c2]
          rw [range_iff, hnex, hney, hner] at c2
          exact hnep px py c2.1.1 (by omega) c2.2.1 c2.2.2
        · rw [if_neg c2]
          rw [range_iff, hnex, hney, hner] at c2
          by_cases c3 : range px py sw = true
          · rw [if_pos c3]
            rw [range_iff, hswx, hswy, hswr] at c3
            exact hswp px py c3.1.1 c3.1.2 c3.2.1 (by omega)
          · rw [if_neg c3]
            rw [range_iff, hswx, hswy, hswr] at c3
            exact hsep px py (by omega) (by omega) (by omega) (by omega)

end QuadtreeNode

/-! ## Adequacy of the fuel of `buildTree` -/

namespace QuadtreeNode

/-- For a side below 1 the recursion of the helper `buildTree` never ends: no amount of
fuel gives a result. -/
theorem buildTree_none_of_lt_one (source : PNG) :
    ∀ (fuel : Nat) (resolution x y : Int), resolution < 1 →
      buildTree source fuel resolution x y = none := by
  intro fuel
  induction fuel with
  | zero => intro resolution x y _; rfl
  | succ f ih =>
    intro resolution x y h
    have hb := tdiv_two_bounds resolution
    have hne : ¬ resolution = 1 := by omega
    rw [buildTree, if_neg hne, ih (resolution.tdiv 2) x y (by omega)]
    rfl

/-- For a side of at least 1 the helper `buildTree` returns as soon as the fuel reaches
the side. -/
theorem buildTree_isSome (source : PNG) :
    ∀ (fuel : Nat) (resolution x y : Int), 1 ≤ resolution → resolution ≤ fuel →
      ∃ n, buildTree source fuel resolution x y = some n := by
  intro fuel
  induction fuel with
  | zero => intro resolution x y h1 h2; omega
  | succ f ih =>
    intro resolution x y h1 h2
    by_cases hone : resolution = 1
    · exact ⟨_, by rw [buildTree, if_pos hone]⟩
    · have hb := tdiv_two_bounds resolution
      have g1 : 1 ≤ resolution.tdiv 2 := by omega
      have g2 : resolution.tdiv 2 ≤ (f : Int) := by push_cast at h2; omega
      obtain ⟨nw, hnw⟩ := ih (resolution.tdiv 2) x y g1 g2
      obtain ⟨ne, hne⟩ := ih (resolution.tdiv 2) (x + resolution.tdiv 2) y g1 g2
      obtain ⟨sw, hsw⟩ := ih (resolution.tdiv 2) x (y + resolution.tdiv 2) g1 g2
      obtain ⟨se, hse⟩ := ih (resolution.tdiv 2) (x + resolution.tdiv 2)
        (y + resolution.tdiv 2) g1 g2
      exact ⟨_, by rw [buildTree, if_neg hone, hnw, hne, hsw, hse]; rfl⟩

end QuadtreeNode

namespace Quadtree

/-- The public `buildTree` returns a tree exactly when the side is at least 1, the sides
for which the source recursion ends. -/
theorem buildTree_isSome_iff (source : PNG) (resolution : Int) :
    (∃ t, buildTree source resolution = some t) ↔ 1 ≤ resolution := by
  constructor
  · rintro ⟨t, ht⟩
    by_contra hlt
    rw [buildTree, QuadtreeNode.buildTree_none_of_lt_one source _ _ _ _ (by omega)] at ht
    simp at ht
  · intro h
    obtain ⟨n, hn⟩ := QuadtreeNode.buildTree_isSome source resolution.toNat resolution 0 0 h
      (by omega)
    exact ⟨⟨some n⟩, by rw [buildTree, hn]; rfl⟩

end Quadtree

/-! ## Reconstruction -/

namespace Quadtree

theorem buildTree_root_pow (source : PNG) (k : Nat) :
    ∃ n, buildTree source (2 ^ k) = some ⟨some n⟩ ∧
      n.x = 0 ∧ n.y = 0 ∧ n.resolution = 2 ^ k ∧ n.WellFormed ∧
      ∀ px py : Int, 0 ≤ px → px < 2 ^ k → 0 ≤ py → py < 2 ^ k →
        n.getPixel px py = source.pixel px py := by
  have hfuel : k < ((2 : Int) ^ k).toNat := by
    have h1 : ((2 : Int) ^ k).toNat = 2 ^ k := by
      have : ((2 : Int) ^ k) = ((2 ^ k : Nat) : Int) := by push_cast; rfl
      rw [this, Int.toNat_ofNat]
    rw [h1]
    exact Nat.lt_two_pow k
  obtain ⟨n, hn, hx, hy, hr, hwf, hp⟩ :=
    QuadtreeNode.buildTree_pow source k ((2 : Int) ^ k).toNat 0 0 hfuel
  refine ⟨n, by simp [buildTree, hn], hx, hy, hr, hwf, ?_⟩
  intro px py h1 h2 h3 h4
  exact hp px py h1 (by omega) h3 (by omega)

/-- The tree that `buildTree` returns for a power-of-two side is well formed. -/
theorem buildTree_wellFormed (source : PNG) (k : Nat) (t : Quadtree)
    (h : buildTree source (2 ^ k) = some t) : t.WellFormed := by
  obtain ⟨n, hn, hx, hy, _, hwf, _⟩ := buildTree_root_pow source k
  rw [hn] at h
  rw [← Option.some.inj h]
  exact ⟨hwf, hx, hy⟩

end Quadtree

/-- C1. Reconstruction fidelity: for every source image and every power-of-two side
`d = 2 ^ k` within the image bounds, `buildTree` returns a tree whose `decompress()` is a
`d × d` image equal to the source at every `(x, y)` with `0 ≤ x, y < d`. -/
theorem reconstruction_fidelity (source : PNG) (d : Int) (k : Nat) (hd : d = 2 ^ k)
    (hw : d ≤ source.width) (hh : d ≤ source.height) :
    ∃ t, Quadtree.buildTree source d = some t ∧
      t.decompress.width = d ∧ t.decompress.height = d ∧
      ∀ x y : Int, 0 ≤ x → x < d → 0 ≤ y → y < d →
        t.decompress.pixel x y = source.pixel x y := by
  subst hd
  obtain ⟨n, hn, _, _, hr, _, hp⟩ := Quadtree.buildTree_root_pow source k
  obtain ⟨hwd, hht, hpx⟩ := Quadtree.decompress_some ⟨some n⟩ n rfl
  refine ⟨⟨some n⟩, hn, by rw [hwd, hr], by rw [hht, hr], ?_⟩
  intro x y h1 h2 h3 h4
  rw [hpx x y h1 (by omega) h3 (by omega)]
  have hres : x ≤ n.resolution ∧ y ≤ n.resolution := by constructor <;> omega
  simp only [Quadtree.getPixel, if_pos hres]
  exact hp x y h1 h2 h3 h4

theorem reconstruction_fidelity_witness :
    ((2 : Int) = 2 ^ 1 ∧ (2 : Int) ≤ sampleImage2.width ∧ (2 : Int) ≤ sampleImage2.height) ∧
    ∃ t, Quadtree.buildTree sampleImage2 2 = some t ∧
      t.decompress.width = 2 ∧ t.decompress.height = 2 ∧
      ∀ x y : Int, 0 ≤ x → x < 2 → 0 ≤ y → y < 2 →
        t.decompress.pixel x y = sampleImage2.pixel x y :=
  ⟨by decide, reconstruction_fidelity sampleImage2 2 1 (by decide) (by decide) (by decide)⟩

/-! ## Pixel lookup in a tiled node -/

namespace QuadtreeNode

/-- Lookup in a node whose children tile its square goes to the quadrant holding the
point. -/
theorem getPixel_quadrant (nw ne sw se : QuadtreeNode) (e : RGBAPixel) (x y r hf : Int)
    (hr : r = 2 * hf)
    (gnw : nw.resolution = hf ∧ nw.x = x ∧ nw.y = y)
    (gne : ne.resolution = hf ∧ ne.x = x + hf ∧ ne.y = y)
    (gsw : sw.resolution = hf ∧ sw.x = x ∧ sw.y = y + hf)
    (px py : Int) (hx0 : x ≤ px) (hy0 : y ≤ py) :
    getPixel px py (node nw ne sw se e x y r) =
      if py < y + hf then (if px < x + hf then nw.getPixel px py else
          if px < x + r then ne.getPixel px py else se.getPixel px py)
      else (if px < x + hf ∧ py < y + r then sw.getPixel px py else se.getPixel px py) := by
  have hne : ¬ (x = px ∧ y = py ∧ r = 1) := by omega
  rw [getPixel, if_neg hne]
  obtain ⟨a1, a2, a3⟩ := gnw
  obtain ⟨b1, b2, b3⟩ := gne
  obtain ⟨c1, c2, c3⟩ := gsw
  by_cases hy : py < y + hf
  · rw [if_pos hy]
    by_cases hx : px < x + hf
    · rw [if_pos hx, if_pos]
      rw [range_iff]; omega
    · rw [if_neg hx, if_neg (by rw [range_iff]; omega)]
      by_cases hx2 : px < x + r
      · rw [if_pos hx2, if_pos (by rw [range_iff]; omega)]
      · rw [if_neg hx2, if_neg (by rw [range_iff]; omega), if_neg (by rw [range_iff]; omega)]
  · rw [if_neg hy, if_neg (by rw [range_iff]; omega), if_neg (by rw [range_iff]; omega)]
    by_cases hx : px < x + hf ∧ py < y + r
    · rw [if_pos hx, if_pos (by rw [range_iff]; omega)]
    · rw [if_neg hx, if_neg (by rw [range_iff]; omega)]

/-! ## Rotation -/

theorem clockwiseRotate_x (n : QuadtreeNode) (x y : Int) : (n.clockwiseRotate x y).x = x := by
  cases n <;> rfl

theorem clockwiseRotate_y (n : QuadtreeNode) (x y : Int) : (n.clockwiseRotate x y).y = y := by
  cases n <;> rfl

theorem clockwiseRotate_resolution (n : QuadtreeNode) (x y : Int) :
    (n.clockwiseRotate x y).resolution = n.resolution := by
  cases n <;> rfl

theorem clockwiseRotate_element (n : QuadtreeNode) (x y : Int) :
    (n.clockwiseRotate x y).element = n.element := by
  cases n <;> rfl

/-- Rotation keeps the tiling invariant. -/
theorem clockwiseRotate_tiled (n : QuadtreeNode) :
    ∀ x y : Int, n.Tiled → (n.clockwiseRotate x y).Tiled := by
  induction n with
  | leaf e lx ly r => intro x y h; exact h
  | node nw ne sw se e nx ny r ihnw ihne ihsw ihse =>
    intro x y h
    obtain ⟨h1, h2, gnw, gne, gsw, gse, tnw, tne, tsw, tse⟩ := h
    refine ⟨h1, h2, ?_, ?_, ?_, ?_, ihsw _ _ tsw, ihnw _ _ tnw, ihse _ _ tse, ihne _ _ tne⟩
    · exact ⟨by rw [clockwiseRotate_resolution]; exact gsw.1, clockwiseRotate_x _ _ _,
        clockwiseRotate_y _ _ _⟩
    · exact ⟨by rw [clockwiseRotate_resolution]; exact gnw.1, clockwiseRotate_x _ _ _,
        clockwiseRotate_y _ _ _⟩
    · exact ⟨by rw [clockwiseRotate_resolution]; exact gse.1, clockwiseRotate_x _ _ _,
        clockwiseRotate_y _ _ _⟩
    · exact ⟨by rw [clockwiseRotate_resolution]; exact gne.1, clockwiseRotate_x _ _ _,
        clockwiseRotate_y _ _ _⟩

/-- Lookup after rotation: the rotated node placed at `(x, y)` shows at `(px, py)` what
the original node shows at the point turned back by a quarter turn. -/
theorem getPixel_clockwiseRotate (n : QuadtreeNode) :
    ∀ (x y px py : Int), n.Tiled →
      x ≤ px → px < x + n.resolution → y ≤ py → py < y + n.resolution →
      (n.clockwiseRotate x y).getPixel px py =
        n.getPixel (n.x + (py - y)) (n.y + n.resolution - 1 - (px - x)) := by
  induction n with
  | leaf e lx ly r => intro x y px py _ _ _ _ _; rfl
  | node nw ne sw se e nx ny r ihnw ihne ihsw ihse =>
    intro x y px py h hx0 hx1 hy0 hy1
    obtain ⟨h1, h2, gnw, gne, gsw, gse, tnw, tne, tsw, tse⟩ := h
    simp only [resolution, QuadtreeNode.x, QuadtreeNode.y] at hx1 hy1 ⊢
    generalize hhf : r.tdiv 2 = hf at *
    rw [clockwiseRotate, hhf]
    rw [getPixel_quadrant _ _ _ _ e x y r hf h2
      ⟨by rw [clockwiseRotate_resolution]; exact gsw.1, clockwiseRotate_x _ _ _,
        clockwiseRotate_y _ _ _⟩
      ⟨by rw [clockwiseRotate_resolution]; exact gnw.1, clockwiseRotate_x _ _ _,
        clockwiseRotate_y _ _ _⟩
      ⟨by rw [clockwiseRotate_resolution]; exact gse.1, clockwiseRotate_x _ _ _,
        clockwiseRotate_y _ _ _⟩ px py hx0 hy0]
    rw [getPixel_quadrant nw ne sw se e nx ny r hf h2 gnw gne gsw _ _ (by omega) (by omega)]
    by_cases cy : py < y + hf
    · by_cases cx : px < x + hf
      · rw [if_pos cy, if_pos cx, if_neg (by omega), if_pos (by omega)]
        rw [ihsw x y px py tsw hx0 (by omega) hy0 (by omega), gsw.1, gsw.2.1, gsw.2.2]
        congr 1; omega
      · rw [if_pos cy, if_neg cx, if_pos hx1, if_pos (by omega), if_pos (by omega)]
        rw [ihnw (x + hf) y px py tnw (by omega) (by omega) hy0 (by omega),
          gnw.1, gnw.2.1, gnw.2.2]
        congr 1; omega
    · by_cases cx : px < x + hf
      · rw [if_neg cy, if_pos ⟨cx, hy1⟩, if_neg (by omega), if_neg (by omega)]
        rw [ihse x (y + hf) px py tse hx0 (by omega) (by omega) (by omega),
          gse.1, gse.2.1, gse.2.2]
        congr 1 <;> omega
      · rw [if_neg cy, if_neg (fun c => cx c.1), if_pos (by omega), if_neg (by omega),
          if_pos (by omega)]
        rw [ihne (x + hf) (y + hf) px py tne (by omega) (by omega) (by omega) (by omega),
          gne.1, gne.2.1, gne.2.2]
        congr 1 <;> omega

end QuadtreeNode

namespace Quadtree

/-- Lookup after the public rotation, for a root at `(0, 0)` that satisfies the tiling
invariant. -/
theorem getPixel_clockwiseRotate_tree (t : Quadtree) (root : QuadtreeNode) (x y : Int)
    (hroot : t.root = some root) (htiled : root.Tiled) (hx : root.x = 0) (hy : root.y = 0)
    (hx0 : 0 ≤ x) (hx1 : x < root.resolution) (hy0 : 0 ≤ y) (hy1 : y < root.resolution) :
    t.clockwiseRotate.getPixel x y = t.getPixel y (root.resolution - 1 - x) := by
  have h1 : x ≤ (root.clockwiseRotate root.x root.y).resolution ∧
      y ≤ (root.clockwiseRotate root.x root.y).resolution := by
    rw [QuadtreeNode.clockwiseRotate_resolution]; omega
  have h2 : y ≤ root.resolution ∧ root.resolution - 1 - x ≤ root.resolution := by omega
  simp only [Quadtree.clockwiseRotate, Quadtree.getPixel, hroot, if_pos h1, if_pos h2]
  rw [QuadtreeNode.getPixel_clockwiseRotate root root.x root.y x y htiled
    (by omega) (by omega) (by omega) (by omega), hx, hy]
  congr 1 <;> omega

/-- The root of the rotated tree. -/
theorem clockwiseRotate_root (t : Quadtree) (root : QuadtreeNode) (hroot : t.root = some root) :
    t.clockwiseRotate.root = some (root.clockwiseRotate root.x root.y) := by
  simp [clockwiseRotate, hroot]

end Quadtree

/-- C2. Rotation correctness: on a non-empty well-formed tree of root side `d`, for every
`(x, y)` with `0 ≤ x, y < d`, `getPixel(x, y)` after `clockwiseRotate` is `getPixel(y, d-1-x)`
before it. -/
theorem rotation_correct (t : Quadtree) (root : QuadtreeNode) (d x y : Int)
    (hroot : t.root = some root) (hwf : t.WellFormed) (hd : root.resolution = d)
    (hx0 : 0 ≤ x) (hx1 : x < d) (hy0 : 0 ≤ y) (hy1 : y < d) :
    t.clockwiseRotate.getPixel x y = t.getPixel y (d - 1 - x) := by
  simp only [Quadtree.WellFormed, hroot] at hwf
  obtain ⟨⟨htiled, _⟩, hx, hy⟩ := hwf
  subst hd
  exact Quadtree.getPixel_clockwiseRotate_tree t root x y hroot htiled hx hy hx0 hx1 hy0 hy1

theorem rotation_correct_witness :
    ((sampleTree4.prune 8).root = some (sampleRoot4.prune 8) ∧
      (sampleTree4.prune 8).WellFormed ∧ (sampleRoot4.prune 8).resolution = 4 ∧
      (0 : Int) ≤ 3 ∧ (3 : Int) < 4 ∧ (0 : Int) ≤ 1 ∧ (1 : Int) < 4) ∧
    (sampleTree4.prune 8).clockwiseRotate.getPixel 3 1 =
      (sampleTree4.prune 8).getPixel 1 (4 - 1 - 3) :=
  ⟨by decide, rotation_correct (sampleTree4.prune 8) (sampleRoot4.prune 8) 4 3 1 rfl
    (by decide) rfl (by decide) (by decide) (by decide) (by decide)⟩

/-! ## Decompressed images -/

theorem PNG.eq_of_fields (a b : PNG) (hw : a.width = b.width) (hh : a.height = b.height)
    (hp : ∀ x y, a.pixel x y = b.pixel x y) : a = b := by
  cases a with
  | mk aw ah ap =>
    cases b with
    | mk bw bh bp =>
      simp only at hw hh hp
      have : ap = bp := funext fun x => funext fun y => hp x y
      rw [hw, hh, this]

namespace Quadtree

/-- Outside the square of the root, the decompressed image keeps the colour of the fresh
image. -/
theorem decompress_outside (t : Quadtree) (root : QuadtreeNode) (h : t.root = some root)
    (x y : Int) (hout : ¬ (0 ≤ x ∧ x < root.resolution ∧ 0 ≤ y ∧ y < root.resolution)) :
    t.decompress.pixel x y = defaultPixel := by
  have hd : t.decompress =
      t.decompressInto root (PNG.blank root.resolution root.resolution) := by
    simp [decompress, h]
  rw [hd]
  unfold decompressInto
  have := PNG.fold_set_grid (fun x y => t.getPixel x y) (List.range root.resolution.toNat)
    x y (List.range root.resolution.toNat) (PNG.blank root.resolution root.resolution)
  simp only at this
  rw [this, if_neg]
  · rfl
  · rintro ⟨⟨a, ha, hxa⟩, ⟨b, hb, hyb⟩⟩
    rw [List.mem_range] at ha hb
    omega

/-- Two non-empty trees of the same root side whose lookups agree on the square
decompress to the same image. -/
theorem decompress_congr (t1 t2 : Quadtree) (r1 r2 : QuadtreeNode)
    (h1 : t1.root = some r1) (h2 : t2.root = some r2) (hres : r1.resolution = r2.resolution)
    (hpix : ∀ x y : Int, 0 ≤ x → x < r1.resolution → 0 ≤ y → y < r1.resolution →
      t1.getPixel x y = t2.getPixel x y) :
    t1.decompress = t2.decompress := by
  obtain ⟨w1, g1, p1⟩ := decompress_some t1 r1 h1
  obtain ⟨w2, g2, p2⟩ := decompress_some t2 r2 h2
  apply PNG.eq_of_fields
  · rw [w1, w2, hres]
  · rw [g1, g2, hres]
  · intro x y
    by_cases hin : 0 ≤ x ∧ x < r1.resolution ∧ 0 ≤ y ∧ y < r1.resolution
    · obtain ⟨a, b, c, d⟩ := hin
      rw [p1 x y a b c d, p2 x y a (by omega) c (by omega)]
      exact hpix x y a b c d
    · rw [decompress_outside t1 r1 h1 x y hin,
        decompress_outside t2 r2 h2 x y (by rw [← hres]; exact hin)]

end Quadtree

/-- C3. Rotation has order four: for every well-formed tree, four applications of
`clockwiseRotate` give a tree whose `decompress()` is the `decompress()` of the original
tree (same size, same colour at every pixel). -/
theorem rotation_order_four (t : Quadtree) (hwf : t.WellFormed) :
    t.clockwiseRotate.clockwiseRotate.clockwiseRotate.clockwiseRotate.decompress =
      t.decompress := by
  cases hroot : t.root with
  | none =>
    have : t.clockwiseRotate.clockwiseRotate.clockwiseRotate.clockwiseRotate = t := by
      cases t with
      | mk r => simp only at hroot; subst hroot; rfl
    rw [this]
  | some root =>
    simp only [Quadtree.WellFormed, hroot] at hwf
    obtain ⟨⟨ht0, _⟩, hx, hy⟩ := hwf
    have e1 := Quadtree.clockwiseRotate_root t root hroot
    rw [hx, hy] at e1
    generalize hr1 : root.clockwiseRotate 0 0 = r1 at e1
    have ht1 : r1.Tiled := by rw [← hr1]; exact QuadtreeNode.clockwiseRotate_tiled _ _ _ ht0
    have hx1 : r1.x = 0 := by rw [← hr1]; exact QuadtreeNode.clockwiseRotate_x _ _ _
    have hy1 : r1.y = 0 := by rw [← hr1]; exact QuadtreeNode.clockwiseRotate_y _ _ _
    have hs1 : r1.resolution = root.resolution := by
      rw [← hr1]; exact QuadtreeNode.clockwiseRotate_resolution _ _ _
    have e2 := Quadtree.clockwiseRotate_root _ r1 e1
    rw [hx1, hy1] at e2
    generalize hr2 : r1.clockwiseRotate 0 0 = r2 at e2
    have ht2 : r2.Tiled := by rw [← hr2]; exact QuadtreeNode.clockwiseRotate_tiled _ _ _ ht1
    have hx2 : r2.x = 0 := by rw [← hr2]; exact QuadtreeNode.clockwiseRotate_x _ _ _
    have hy2 : r2.y = 0 := by rw [← hr2]; exact QuadtreeNode.clockwiseRotate_y _ _ _
    have hs2 : r2.resolution = root.resolution := by
      rw [← hr2, QuadtreeNode.clockwiseRotate_resolution, hs1]
    have e3 := Quadtree.clockwiseRotate_root _ r2 e2
    rw [hx2, hy2] at e3
    generalize hr3 : r2.clockwiseRotate 0 0 = r3 at e3
    have ht3 : r3.Tiled := by rw [← hr3]; exact QuadtreeNode.clockwiseRotate_tiled _ _ _ ht2
    have hx3 : r3.x = 0 := by rw [← hr3]; exact QuadtreeNode.clockwiseRotate_x _ _ _
    have hy3 : r3.y = 0 := by rw [← hr3]; exact QuadtreeNode.clockwiseRotate_y _ _ _
    have hs3 : r3.resolution = root.resolution := by
      rw [← hr3, QuadtreeNode.clockwiseRotate_resolution, hs2]
    have e4 := Quadtree.clockwiseRotate_root _ r3 e3
    have hs4 : (r3.clockwiseRotate r3.x r3.y).resolution = root.resolution := by
      rw [QuadtreeNode.clockwiseRotate_resolution, hs3]
    apply Quadtree.decompress_congr _ _ _ _ e4 hroot hs4
    intro x y a b c d
    rw [hs4] at b d
    rw [Quadtree.getPixel_clockwiseRotate_tree _ r3 x y e3 ht3 hx3 hy3 a (by omega) c (by omega),
      Quadtree.getPixel_clockwiseRotate_tree _ r2 _ _ e2 ht2 hx2 hy2 (by omega) (by omega)
        (by omega) (by omega),
      Quadtree.getPixel_clockwiseRotate_tree _ r1 _ _ e1 ht1 hx1 hy1 (by omega) (by omega)
        (by omega) (by omega),
      Quadtree.getPixel_clockwiseRotate_tree _ root _ _ hroot ht0 hx hy (by omega) (by omega)
        (by omega) (by omega)]
    congr 1 <;> omega

theorem rotation_order_four_witness :
    sampleTree2.WellFormed ∧
    sampleTree2.clockwiseRotate.clockwiseRotate.clockwiseRotate.clockwiseRotate.decompress =
      sampleTree2.decompress :=
  ⟨by decide, rotation_order_four sampleTree2 (by decide)⟩

/-! ## Pruning and the simulated prune size -/

namespace QuadtreeNode

theorem leaves_length_prune (tolerance : Int) (n : QuadtreeNode) :
    (((n.prune tolerance).leaves.length : Nat) : Int) = n.pruneSize tolerance := by
  induction n with
  | leaf e x y r => simp [prune, leaves, pruneSize]
  | node nw ne sw se e x y r ihnw ihne ihsw ihse =>
    by_cases h : checkTolerance e tolerance (node nw ne sw se e x y r) = true
    · rw [prune, pruneSize, if_pos h, if_pos h]; simp [leaves]
    · rw [prune, pruneSize, if_neg h, if_neg h, ← ihnw, ← ihne, ← ihsw, ← ihse]
      simp [leaves]
      omega

end QuadtreeNode

/-- C4. Prune consistency: for a non-empty tree and a tolerance `t ≥ 0`, the number of
leaves after `prune(t)` is the value `pruneSize(t)` returned before the prune. -/
theorem prune_consistency (t : Quadtree) (root : QuadtreeNode) (tolerance : Int)
    (hroot : t.root = some root) (htol : 0 ≤ tolerance) :
    (t.prune tolerance).leafCount = t.pruneSize tolerance := by
  have h : tolerance ≥ 0 := htol
  simp only [Quadtree.prune, Quadtree.leafCount, Quadtree.pruneSize, hroot, if_pos h]
  exact QuadtreeNode.leaves_length_prune tolerance root

theorem prune_consistency_witness :
    (sampleTree4.root = some sampleRoot4 ∧ (0 : Int) ≤ 8) ∧
    (sampleTree4.prune 8).leafCount = sampleTree4.pruneSize 8 :=
  ⟨by decide, prune_consistency sampleTree4 sampleRoot4 8 rfl (by decide)⟩

namespace QuadtreeNode

theorem checkTolerance_mono (e : RGBAPixel) (t1 t2 : Int) (h12 : t1 ≤ t2) (n : QuadtreeNode) :
    checkTolerance e t1 n = true → checkTolerance e t2 n = true := by
  induction n with
  | leaf c x y r =>
    simp only [checkTolerance, decide_eq_true_eq]
    intro h; omega
  | node nw ne sw se c x y r ihnw ihne ihsw ihse =>
    simp only [checkTolerance, Bool.and_eq_true]
    rintro ⟨⟨⟨a, b⟩, c⟩, d⟩
    exact ⟨⟨⟨ihnw a, ihne b⟩, ihsw c⟩, ihse d⟩

theorem pruneSize_pos (tolerance : Int) (n : QuadtreeNode) : 1 ≤ n.pruneSize tolerance := by
  induction n with
  | leaf c x y r => simp [pruneSize]
  | node nw ne sw se c x y r ihnw ihne ihsw ihse =>
    rw [pruneSize]
    split
    · exact Int.le_refl 1
    · omega

theorem pruneSize_mono (t1 t2 : Int) (h12 : t1 ≤ t2) (n : QuadtreeNode) :
    n.pruneSize t2 ≤ n.pruneSize t1 := by
  induction n with
  | leaf c x y r => simp [pruneSize]
  | node nw ne sw se c x y r ihnw ihne ihsw ihse =>
    by_cases h2 : checkTolerance c t2 (node nw ne sw se c x y r) = true
    · rw [pruneSize, if_pos h2]
      exact pruneSize_pos t1 _
    · have h1 : ¬ checkTolerance c t1 (node nw ne sw se c x y r) = true :=
        fun h => h2 (checkTolerance_mono c t1 t2 h12 _ h)
      rw [pruneSize, if_neg h2, pruneSize, if_neg h1]
      omega

end QuadtreeNode

namespace Quadtree

/-- On non-negative tolerances `pruneSize` does not increase. -/
theorem pruneSize_mono_tree (t : Quadtree) (t1 t2 : Int) (h1 : 0 ≤ t1) (h12 : t1 ≤ t2) :
    t.pruneSize t2 ≤ t.pruneSize t1 := by
  cases hroot : t.root with
  | none => simp [pruneSize, hroot]
  | some root =>
    have a1 : t1 ≥ 0 := h1
    have a2 : t2 ≥ 0 := by omega
    simp only [pruneSize, hroot, if_pos a1, if_pos a2]
    exact QuadtreeNode.pruneSize_mono t1 t2 h12 root

end Quadtree

/-- C7. Prune monotonicity on the valid domain: for every tree and all tolerances
`0 ≤ t1 ≤ t2`, `pruneSize(t1) ≥ pruneSize(t2)`. -/
theorem prune_monotone (t : Quadtree) (t1 t2 : Int) (h1 : 0 ≤ t1) (h12 : t1 ≤ t2) :
    t.pruneSize t1 ≥ t.pruneSize t2 :=
  Quadtree.pruneSize_mono_tree t t1 t2 h1 h12

theorem prune_monotone_witness :
    ((0 : Int) ≤ 2 ∧ (2 : Int) ≤ 50) ∧ sampleTree4.pruneSize 2 ≥ sampleTree4.pruneSize 50 :=
  ⟨by decide, prune_monotone sampleTree4 2 50 (by decide) (by decide)⟩

/-! ## The search for the ideal tolerance -/

theorem colorDiff_le (a b : RGBAPixel) : colorDiff a b ≤ 255 * 255 * 3 := by
  have sq : ∀ u v : Fin 256, ((u.val : Int) - v.val) * ((u.val : Int) - v.val) ≤ 65025 := by
    intro u v
    have hu : (u.val : Int) < 256 := by exact_mod_cast u.isLt
    have hv : (v.val : Int) < 256 := by exact_mod_cast v.isLt
    have hu0 : (0 : Int) ≤ u.val := Int.ofNat_nonneg _
    have hv0 : (0 : Int) ≤ v.val := Int.ofNat_nonneg _
    nlinarith [mul_nonneg (show (0 : Int) ≤ 255 - ((u.val : Int) - v.val) by omega)
      (show (0 : Int) ≤ 255 + ((u.val : Int) - v.val) by omega)]
  have h1 := sq a.red b.red
  have h2 := sq a.green b.green
  have h3 := sq a.blue b.blue
  simp only [colorDiff]
  omega

namespace QuadtreeNode

/-- Every subtree passes the tolerance test once the tolerance reaches `3 * 255 ^ 2`. -/
theorem checkTolerance_max (e : RGBAPixel) (tolerance : Int) (h : 255 * 255 * 3 ≤ tolerance)
    (n : QuadtreeNode) : checkTolerance e tolerance n = true := by
  induction n with
  | leaf c x y r =>
    simp only [checkTolerance, decide_eq_true_eq]
    exact Int.le_trans (colorDiff_le c e) h
  | node nw ne sw se c x y r ihnw ihne ihsw ihse =>
    simp only [checkTolerance, Bool.and_eq_true]
    exact ⟨⟨⟨ihnw, ihne⟩, ihsw⟩, ihse⟩

theorem pruneSize_max (tolerance : Int) (h : 255 * 255 * 3 ≤ tolerance) (n : QuadtreeNode) :
    n.pruneSize tolerance = 1 := by
  cases n with
  | leaf c x y r => rfl
  | node nw ne sw se c x y r =>
    rw [pruneSize, if_pos (checkTolerance_max c tolerance h _)]

end QuadtreeNode

namespace Quadtree

theorem pruneSize_max_tree (t : Quadtree) (root : QuadtreeNode) (hroot : t.root = some root)
    (tolerance : Int) (h : 255 * 255 * 3 ≤ tolerance) : t.pruneSize tolerance = 1 := by
  have h0 : tolerance ≥ 0 := by omega
  simp only [pruneSize, hroot, if_pos h0]
  exact QuadtreeNode.pruneSize_max tolerance h root

/-- The search invariant: when no tolerance below `lower` meets the budget and every
tolerance above `upper` does, the search returns the least non-negative tolerance that
meets the budget. -/
theorem idealPruneBounds_spec (t : Quadtree) :
    ∀ lower upper numLeaves : Int, 0 ≤ lower →
      (∀ s, 0 ≤ s → s < lower → numLeaves < t.pruneSize s) →
      (∀ s, upper < s → t.pruneSize s ≤ numLeaves) →
      0 ≤ t.idealPruneBounds lower upper numLeaves ∧
      t.pruneSize (t.idealPruneBounds lower upper numLeaves) ≤ numLeaves ∧
      ∀ s, 0 ≤ s → s < t.idealPruneBounds lower upper numLeaves →
        numLeaves < t.pruneSize s := by
  intro lower upper numLeaves
  induction lower, upper, numLeaves using Quadtree.idealPruneBounds.induct t with
  | case1 lower upper numLeaves hgt =>
    intro h0 inv1 inv2
    rw [idealPruneBounds, dif_pos hgt]
    exact ⟨h0, inv2 lower hgt, inv1⟩
  | case2 lower upper hle tol heq ih =>
    intro h0 inv1 inv2
    have hb := tdiv_two_bounds (lower + upper)
    rw [idealPruneBounds, dif_neg hle]
    simp only [if_pos (show t.pruneSize ((lower + upper).tdiv 2) = tol from rfl)]
    rw [if_pos heq]
    apply ih (Int.le_refl 0)
    · intro s hs0 hs1; omega
    · intro s hs
      exact pruneSize_mono_tree t _ s (by omega) (by omega)
  | case3 lower upper hle tol hneq =>
    intro h0 inv1 inv2
    have hb := tdiv_two_bounds (lower + upper)
    rw [idealPruneBounds, dif_neg hle]
    simp only [if_pos (show t.pruneSize ((lower + upper).tdiv 2) = tol from rfl)]
    rw [if_neg hneq]
    refine ⟨by omega, Int.le_refl _, ?_⟩
    intro s hs0 hs1
    have m1 := pruneSize_mono_tree t s ((lower + upper).tdiv 2 - 1) hs0 (by omega)
    have m2 := pruneSize_mono_tree t ((lower + upper).tdiv 2 - 1) ((lower + upper).tdiv 2)
      (by omega) (by omega)
    have m3 : t.pruneSize ((lower + upper).tdiv 2) ≠
        t.pruneSize ((lower + upper).tdiv 2 - 1) := hneq
    show t.pruneSize ((lower + upper).tdiv 2) < t.pruneSize s
    omega
  | case4 lower upper numLeaves hle tol hne hgt ih =>
    intro h0 inv1 inv2
    have hb := tdiv_two_bounds (lower + upper)
    rw [idealPruneBounds, dif_neg hle]
    simp only [if_neg (show ¬ t.pruneSize ((lower + upper).tdiv 2) = numLeaves from hne),
      if_pos (show t.pruneSize ((lower + upper).tdiv 2) > numLeaves from hgt)]
    apply ih (by omega)
    · intro s hs0 hs1
      have m1 := pruneSize_mono_tree t s ((lower + upper).tdiv 2) hs0 (by omega)
      have m2 : t.pruneSize ((lower + upper).tdiv 2) > numLeaves := hgt
      omega
    · exact inv2
  | case5 lower upper numLeaves hle tol hne hngt hlt ih =>
    intro h0 inv1 inv2
    have hb := tdiv_two_bounds (lower + upper)
    rw [idealPruneBounds, dif_neg hle]
    simp only [if_neg (show ¬ t.pruneSize ((lower + upper).tdiv 2) = numLeaves from hne),
      if_neg (show ¬ t.pruneSize ((lower + upper).tdiv 2) > numLeaves from hngt),
      if_pos (show t.pruneSize ((lower + upper).tdiv 2) < numLeaves from hlt)]
    apply ih h0 inv1
    intro s hs
    have m1 := pruneSize_mono_tree t ((lower + upper).tdiv 2) s (by omega) (by omega)
    have m2 : t.pruneSize ((lower + upper).tdiv 2) < numLeaves := hlt
    omega
  | case6 lower upper numLeaves hle tol hne hngt hnlt =>
    intro h0 inv1 inv2
    exfalso
    have a1 : ¬ t.pruneSize ((lower + upper).tdiv 2) = numLeaves := hne
    have a2 : ¬ t.pruneSize ((lower + upper).tdiv 2) > numLeaves := hngt
    have a3 : ¬ t.pruneSize ((lower + upper).tdiv 2) < numLeaves := hnlt
    omega

/-- The public search on a non-empty tree with a budget of at least one leaf. -/
theorem idealPrune_spec (t : Quadtree) (root : QuadtreeNode) (hroot : t.root = some root)
    (numLeaves : Int) (hn : 1 ≤ numLeaves) :
    0 ≤ t.idealPrune numLeaves ∧
    t.pruneSize (t.idealPrune numLeaves) ≤ numLeaves ∧
    ∀ s, 0 ≤ s → s < t.idealPrune numLeaves → numLeaves < t.pruneSize s := by
  have h : t.idealPrune numLeaves = t.idealPruneBounds 0 (255 * 255 * 3) numLeaves := by
    simp [idealPrune, hroot]
  rw [h]
  apply idealPruneBounds_spec t 0 (255 * 255 * 3) numLeaves (Int.le_refl 0)
  · intro s hs0 hs1; omega
  · intro s hs
    rw [pruneSize_max_tree t root hroot s (by omega)]
    exact hn

end Quadtree

/-- C5. The ideal tolerance meets the budget: for every non-empty tree (its colour
channels are 8-bit values, so they lie in 0..255) and every `numLeaves ≥ 1`,
`pruneSize(idealPrune(numLeaves)) ≤ numLeaves`. -/
theorem idealPrune_meets_budget (t : Quadtree) (root : QuadtreeNode) (numLeaves : Int)
    (hroot : t.root = some root) (hn : 1 ≤ numLeaves) :
    t.pruneSize (t.idealPrune numLeaves) ≤ numLeaves :=
  (Quadtree.idealPrune_spec t root hroot numLeaves hn).2.1

theorem idealPrune_meets_budget_witness :
    (sampleTree4.root = some sampleRoot4 ∧ (1 : Int) ≤ 7) ∧
    sampleTree4.pruneSize (sampleTree4.idealPrune 7) ≤ 7 :=
  ⟨by decide, idealPrune_meets_budget sampleTree4 sampleRoot4 7 rfl (by decide)⟩

/-- C6. The ideal tolerance is minimal: for every non-empty tree and every
`numLeaves ≥ 1`, every tolerance `s` with `0 ≤ s < idealPrune(numLeaves)` has
`pruneSize(s) > numLeaves`, and the returned tolerance is itself non-negative and within
the budget, so it is the smallest non-negative tolerance whose `pruneSize` is at most
`numLeaves`. -/
theorem idealPrune_minimal (t : Quadtree) (root : QuadtreeNode) (numLeaves : Int)
    (hroot : t.root = some root) (hn : 1 ≤ numLeaves) :
    (∀ s : Int, 0 ≤ s → s < t.idealPrune numLeaves → t.pruneSize s > numLeaves) ∧
    0 ≤ t.idealPrune numLeaves ∧ t.pruneSize (t.idealPrune numLeaves) ≤ numLeaves := by
  obtain ⟨h0, h1, h2⟩ := Quadtree.idealPrune_spec t root hroot numLeaves hn
  exact ⟨h2, h0, h1⟩

theorem idealPrune_minimal_witness :
    (sampleTree4.root = some sampleRoot4 ∧ (1 : Int) ≤ 4) ∧
    ((∀ s : Int, 0 ≤ s → s < sampleTree4.idealPrune 4 → sampleTree4.pruneSize s > 4) ∧
    0 ≤ sampleTree4.idealPrune 4 ∧ sampleTree4.pruneSize (sampleTree4.idealPrune 4) ≤ 4) :=
  ⟨by decide, idealPrune_minimal sampleTree4 sampleRoot4 4 rfl (by decide)⟩

/-! ## Colours before and after a prune -/

theorem colorDiff_self (a : RGBAPixel) : colorDiff a a = 0 := by
  simp [colorDiff]

theorem eq_of_colorDiff_le_zero (a b : RGBAPixel) (h : colorDiff a b ≤ 0) : a = b := by
  simp only [colorDiff] at h
  have h1 := mul_self_nonneg ((a.red.val : Int) - b.red.val)
  have h2 := mul_self_nonneg ((a.green.val : Int) - b.green.val)
  have h3 := mul_self_nonneg ((a.blue.val : Int) - b.blue.val)
  have e1 : ((a.red.val : Int) - b.red.val) * ((a.red.val : Int) - b.red.val) = 0 := by omega
  have e2 : ((a.green.val : Int) - b.green.val) * ((a.green.val : Int) - b.green.val) = 0 := by
    omega
  have e3 : ((a.blue.val : Int) - b.blue.val) * ((a.blue.val : Int) - b.blue.val) = 0 := by
    omega
  rw [mul_self_eq_zero] at e1 e2 e3
  cases a with
  | mk ar ag ab =>
    cases b with
    | mk br bg bb =>
      simp only at e1 e2 e3
      have r1 : ar = br := Fin.ext (by omega)
      have r2 : ag = bg := Fin.ext (by omega)
      have r3 : ab = bb := Fin.ext (by omega)
      rw [r1, r2, r3]

namespace QuadtreeNode

theorem prune_x (tolerance : Int) (n : QuadtreeNode) : (n.prune tolerance).x = n.x := by
  cases n with
  | leaf e x y r => rfl
  | node nw ne sw se e x y r => rw [prune]; split <;> rfl

theorem prune_y (tolerance : Int) (n : QuadtreeNode) : (n.prune tolerance).y = n.y := by
  cases n with
  | leaf e x y r => rfl
  | node nw ne sw se e x y r => rw [prune]; split <;> rfl

theorem prune_resolution (tolerance : Int) (n : QuadtreeNode) :
    (n.prune tolerance).resolution = n.resolution := by
  cases n with
  | leaf e x y r => rfl
  | node nw ne sw se e x y r => rw [prune]; split <;> rfl

theorem range_prune (tolerance : Int) (n : QuadtreeNode) (px py : Int) :
    range px py (n.prune tolerance) = range px py n := by
  simp only [range, prune_x, prune_y, prune_resolution]

/-- In a tiled subtree that passes the tolerance test against a colour, every lookup
returns a colour within the tolerance of that colour. -/
theorem colorDiff_getPixel_of_checkTolerance (e : RGBAPixel) (tolerance : Int) (px py : Int)
    (n : QuadtreeNode) :
    n.Tiled → checkTolerance e tolerance n = true →
      colorDiff (n.getPixel px py) e ≤ tolerance := by
  induction n with
  | leaf c x y r =>
    intro _ h
    simpa [checkTolerance, getPixel] using h
  | node nw ne sw se c x y r ihnw ihne ihsw ihse =>
    intro ht h
    obtain ⟨h1, h2, _, _, _, _, tnw, tne, tsw, tse⟩ := ht
    simp only [checkTolerance, Bool.and_eq_true] at h
    obtain ⟨⟨⟨cnw, cne⟩, csw⟩, cse⟩ := h
    have hne : ¬ (x = px ∧ y = py ∧ r = 1) := by omega
    rw [getPixel, if_neg hne]
    split
    · exact ihnw tnw cnw
    · split
      · exact ihne tne cne
      · split
        · exact ihsw tsw csw
        · exact ihse tse cse

/-- The lookup colour before a prune and after it differ by at most the tolerance. -/
theorem colorDiff_getPixel_prune (tolerance : Int) (htol : 0 ≤ tolerance) (px py : Int)
    (n : QuadtreeNode) :
    n.Tiled → n.Averaged →
      colorDiff (n.getPixel px py) ((n.prune tolerance).getPixel px py) ≤ tolerance := by
  induction n with
  | leaf c x y r =>
    intro _ _
    rw [prune, colorDiff_self]
    exact htol
  | node nw ne sw se c x y r ihnw ihne ihsw ihse =>
    intro ht ha
    by_cases hc : checkTolerance c tolerance (node nw ne sw se c x y r) = true
    · rw [prune, if_pos hc, ← ha.1]
      exact colorDiff_getPixel_of_checkTolerance c tolerance px py _ ht hc
    · obtain ⟨h1, h2, _, _, _, _, tnw, tne, tsw, tse⟩ := ht
      obtain ⟨_, anw, ane, asw, ase⟩ := ha
      have hne : ¬ (x = px ∧ y = py ∧ r = 1) := by omega
      rw [prune, if_neg hc, getPixel, getPixel, if_neg hne, if_neg hne]
      simp only [range_prune]
      split
      · exact ihnw tnw anw
      · split
        · exact ihne tne ane
        · split
          · exact ihsw tsw asw
          · exact ihse tse ase

end QuadtreeNode

namespace Quadtree

/-- The lookup colour of the tree before a prune and after it differ by at most the
tolerance, at every coordinate. -/
theorem colorDiff_getPixel_prune_tree (t : Quadtree) (hwf : t.WellFormed) (tolerance : Int)
    (htol : 0 ≤ tolerance) (x y : Int) :
    colorDiff (t.getPixel x y) ((t.prune tolerance).getPixel x y) ≤ tolerance := by
  cases hroot : t.root with
  | none =>
    simp only [getPixel, prune, hroot, colorDiff_self]
    exact htol
  | some root =>
    simp only [WellFormed, hroot] at hwf
    simp only [getPixel, prune, hroot, QuadtreeNode.prune_resolution]
    split
    · exact QuadtreeNode.colorDiff_getPixel_prune tolerance htol x y root hwf.1.1 hwf.1.2
    · rw [colorDiff_self]; exact htol

/-- A prune with tolerance 0 does not change the decompressed image. -/
theorem decompress_prune_zero (t : Quadtree) (hwf : t.WellFormed) :
    (t.prune 0).decompress = t.decompress := by
  cases hroot : t.root with
  | none =>
    have : t.prune 0 = t := by
      cases t with
      | mk r => simp only at hroot; subst hroot; rfl
    rw [this]
  | some root =>
    have hp : (t.prune 0).root = some (root.prune 0) := by simp [prune, hroot]
    apply decompress_congr _ _ _ _ hp hroot (QuadtreeNode.prune_resolution 0 root)
    intro x y _ _ _ _
    exact (eq_of_colorDiff_le_zero _ _
      (colorDiff_getPixel_prune_tree t hwf 0 (Int.le_refl 0) x y)).symm

end Quadtree

/-- C8. Pruning colour bound: for every well-formed tree, every tolerance `t ≥ 0` and every
pixel `(x, y)` inside the root square of side `d`, the sum of squared per-channel
differences between `getPixel(x, y)` before `prune(t)` and after it is at most `t`; and
`prune(0)` leaves `decompress()` unchanged. -/
theorem prune_color_bound (t : Quadtree) (tolerance : Int) (hwf : t.WellFormed)
    (htol : 0 ≤ tolerance) :
    (∀ (root : QuadtreeNode) (d x y : Int), t.root = some root → root.resolution = d →
      0 ≤ x → x < d → 0 ≤ y → y < d →
      colorDiff (t.getPixel x y) ((t.prune tolerance).getPixel x y) ≤ tolerance) ∧
    (t.prune 0).decompress = t.decompress :=
  ⟨fun _ _ x y _ _ _ _ _ _ => Quadtree.colorDiff_getPixel_prune_tree t hwf tolerance htol x y,
    Quadtree.decompress_prune_zero t hwf⟩

theorem prune_color_bound_witness :
    (sampleTree4.WellFormed ∧ (0 : Int) ≤ 8) ∧
    ((∀ (root : QuadtreeNode) (d x y : Int), sampleTree4.root = some root →
      root.resolution = d → 0 ≤ x → x < d → 0 ≤ y → y < d →
      colorDiff (sampleTree4.getPixel x y) ((sampleTree4.prune 8).getPixel x y) ≤ 8) ∧
    (sampleTree4.prune 0).decompress = sampleTree4.decompress) :=
  ⟨by decide, prune_color_bound sampleTree4 8 (by decide) (by decide)⟩

/-! ## Lookup returns the leaf that covers the point -/

namespace QuadtreeNode

/-- In a tiled subtree the square of every leaf lies inside the square of the root. -/
theorem range_of_mem_leaves (px py : Int) (n : QuadtreeNode) :
    n.Tiled → ∀ l ∈ n.leaves, range px py l = true → range px py n = true := by
  induction n with
  | leaf c x y r =>
    intro _ l hl hr
    rw [leaves, List.mem_singleton] at hl
    rw [← hl]; exact hr
  | node nw ne sw se c x y r ihnw ihne ihsw ihse =>
    intro ht l hl hr
    obtain ⟨h1, h2, gnw, gne, gsw, gse, tnw, tne, tsw, tse⟩ := ht
    simp only [leaves, List.mem_append] at hl
    rw [range_iff]
    simp only [QuadtreeNode.x, QuadtreeNode.y, resolution]
    rcases hl with ((hl | hl) | hl) | hl
    · have := ihnw tnw l hl hr
      rw [range_iff] at this; omega
    · have := ihne tne l hl hr
      rw [range_iff] at this; omega
    · have := ihsw tsw l hl hr
      rw [range_iff] at this; omega
    · have := ihse tse l hl hr
      rw [range_iff] at this; omega

/-- In a tiled subtree, a point of the root square lies in the square of exactly one
leaf, and the lookup returns the colour of that leaf. -/
theorem getPixel_unique_leaf (px py : Int) (n : QuadtreeNode) :
    n.Tiled → range px py n = true →
      ∃ l ∈ n.leaves, range px py l = true ∧ n.getPixel px py = l.element ∧
        ∀ l2 ∈ n.leaves, range px py l2 = true → l2 = l := by
  induction n with
  | leaf c x y r =>
    intro _ hr
    refine ⟨leaf c x y r, by simp [leaves], hr, rfl, ?_⟩
    intro l2 hl2 _
    simpa [leaves] using hl2
  | node nw ne sw se c x y r ihnw ihne ihsw ihse =>
    intro ht hr
    obtain ⟨h1, h2, gnw, gne, gsw, gse, tnw, tne, tsw, tse⟩ := ht
    generalize hhf : r.tdiv 2 = hf at *
    rw [range_iff] at hr
    simp only [QuadtreeNode.x, QuadtreeNode.y, resolution] at hr
    have inw := range_of_mem_leaves px py nw tnw
    have ine := range_of_mem_leaves px py ne tne
    have isw := range_of_mem_leaves px py sw tsw
    have ise := range_of_mem_leaves px py se tse
    simp only [range_iff] at ihnw ihne ihsw ihse inw ine isw ise
    rw [getPixel_quadrant nw ne sw se c x y r hf h2 gnw gne gsw px py hr.1.1 hr.2.1]
    simp only [leaves, List.mem_append]
    by_cases cy : py < y + hf
    · by_cases cx : px < x + hf
      · rw [if_pos cy, if_pos cx]
        obtain ⟨l, hl, hlr, hle, hlu⟩ := ihnw tnw (by omega)
        refine ⟨l, Or.inl (Or.inl (Or.inl hl)), (range_iff px py l).mpr hlr, hle, ?_⟩
        intro l2 hl2 hr2
        rcases hl2 with ((m | m) | m) | m
        · exact hlu l2 m ((range_iff px py l2).mp hr2)
        · have := ine l2 m ((range_iff px py l2).mp hr2); omega
        · have := isw l2 m ((range_iff px py l2).mp hr2); omega
        · have := ise l2 m ((range_iff px py l2).mp hr2); omega
      · rw [if_pos cy, if_neg cx, if_pos (by omega)]
        obtain ⟨l, hl, hlr, hle, hlu⟩ := ihne tne (by omega)
        refine ⟨l, Or.inl (Or.inl (Or.inr hl)), (range_iff px py l).mpr hlr, hle, ?_⟩
        intro l2 hl2 hr2
        rcases hl2 with ((m | m) | m) | m
        · have := inw l2 m ((range_iff px py l2).mp hr2); omega
        · exact hlu l2 m ((range_iff px py l2).mp hr2)
        · have := isw l2 m ((range_iff px py l2).mp hr2); omega
        · have := ise l2 m ((range_iff px py l2).mp hr2); omega
    · by_cases cx : px < x + hf
      · rw [if_neg cy, if_pos ⟨cx, by omega⟩]
        obtain ⟨l, hl, hlr, hle, hlu⟩ := ihsw tsw (by omega)
        refine ⟨l, Or.inl (Or.inr hl), (range_iff px py l).mpr hlr, hle, ?_⟩
        intro l2 hl2 hr2
        rcases hl2 with ((m | m) | m) | m
        · have := inw l2 m ((range_iff px py l2).mp hr2); omega
        · have := ine l2 m ((range_iff px py l2).mp hr2); omega
        · exact hlu l2 m ((range_iff px py l2).mp hr2)
        · have := ise l2 m ((range_iff px py l2).mp hr2); omega
      · rw [if_neg cy, if_neg (fun c => cx c.1)]
        obtain ⟨l, hl, hlr, hle, hlu⟩ := ihse tse (by omega)
        refine ⟨l, Or.inr hl, (range_iff px py l).mpr hlr, hle, ?_⟩
        intro l2 hl2 hr2
        rcases hl2 with ((m | m) | m) | m
        · have := inw l2 m ((range_iff px py l2).mp hr2); omega
        · have := ine l2 m ((range_iff px py l2).mp hr2); omega
        · have := isw l2 m ((range_iff px py l2).mp hr2); omega
        · exact hlu l2 m ((range_iff px py l2).mp hr2)

end QuadtreeNode

/-- C9. Pixel lookup returns the deepest surviving node: on a non-empty well-formed tree
of root side `d` (pruned or not), for every `(x, y)` with `0 ≤ x, y < d`, exactly one
childless node has a square `[x0, x0 + side) × [y0, y0 + side)` containing `(x, y)`, and
`getPixel(x, y)` is the colour of that node. -/
theorem getPixel_deepest_leaf (t : Quadtree) (root : QuadtreeNode) (d x y : Int)
    (hroot : t.root = some root) (hwf : t.WellFormed) (hd : root.resolution = d)
    (hx0 : 0 ≤ x) (hx1 : x < d) (hy0 : 0 ≤ y) (hy1 : y < d) :
    ∃ l ∈ root.leaves, QuadtreeNode.range x y l = true ∧ t.getPixel x y = l.element ∧
      ∀ l2 ∈ root.leaves, QuadtreeNode.range x y l2 = true → l2 = l := by
  simp only [Quadtree.WellFormed, hroot] at hwf
  obtain ⟨⟨htiled, _⟩, hx, hy⟩ := hwf
  have hres : x ≤ root.resolution ∧ y ≤ root.resolution := by omega
  have hg : t.getPixel x y = root.getPixel x y := by
    simp only [Quadtree.getPixel, hroot, if_pos hres]
  rw [hg]
  apply QuadtreeNode.getPixel_unique_leaf x y root htiled
  rw [QuadtreeNode.range_iff]
  omega

theorem getPixel_deepest_leaf_witness :
    ((sampleTree4.prune 8).root = some (sampleRoot4.prune 8) ∧
      (sampleTree4.prune 8).WellFormed ∧ (sampleRoot4.prune 8).resolution = 4 ∧
      (0 : Int) ≤ 1 ∧ (1 : Int) < 4 ∧ (0 : Int) ≤ 1 ∧ (1 : Int) < 4) ∧
    ∃ l ∈ (sampleRoot4.prune 8).leaves, QuadtreeNode.range 1 1 l = true ∧
      (sampleTree4.prune 8).getPixel 1 1 = l.element ∧
      ∀ l2 ∈ (sampleRoot4.prune 8).leaves, QuadtreeNode.range 1 1 l2 = true → l2 = l :=
  ⟨by decide, getPixel_deepest_leaf (sampleTree4.prune 8) (sampleRoot4.prune 8) 4 1 1 rfl
    (by decide) rfl (by decide) (by decide) (by decide) (by decide)⟩

/-! ## Lookup outside the root square -/

/-- The sample tree `sampleTree2` is the tree that `buildTree` returns for `sampleImage2`. -/
theorem buildTree_sampleImage2 : Quadtree.buildTree sampleImage2 2 = some sampleTree2 := by
  decide

/-- C10, evaluated on the code: on the 2 × 2 tree built from `sampleImage2` (root side 2),
the lookups at `(2, 0)` and at `(-1, 0)`, both outside `[0, 2) × [0, 2)`, pass the guard
`x <= resolution && y <= resolution` and return the colour of the southeast leaf, which is
not the default colour; the lookup at `(3, 0)` is the one that returns the default. -/
theorem getPixel_outside_not_default :
    sampleTree2.getPixel 2 0 = ⟨40, 90, 7⟩ ∧ sampleTree2.getPixel (-1) 0 = ⟨40, 90, 7⟩ ∧
    sampleTree2.getPixel 2 0 ≠ defaultPixel ∧ sampleTree2.getPixel (-1) 0 ≠ defaultPixel ∧
    sampleTree2.getPixel 3 0 = defaultPixel := by
  decide

/-! ## The trees of the class are well formed -/

theorem averageColor_rotate (nw ne sw se : RGBAPixel) :
    averageColor sw nw se ne = averageColor nw ne sw se := by
  simp only [averageColor]
  congr 2 <;> omega

namespace QuadtreeNode

theorem prune_element_of_averaged (tolerance : Int) (n : QuadtreeNode) (h : n.Averaged) :
    (n.prune tolerance).element = n.element := by
  cases n with
  | leaf e x y r => rfl
  | node nw ne sw se e x y r =>
    rw [prune]
    split
    · exact h.1.symm
    · rfl

/-- The helper `prune` keeps the tiling invariant. -/
theorem prune_tiled (tolerance : Int) (n : QuadtreeNode) :
    n.Tiled → (n.prune tolerance).Tiled := by
  induction n with
  | leaf e x y r => intro h; exact h
  | node nw ne sw se e x y r ihnw ihne ihsw ihse =>
    intro h
    obtain ⟨h1, h2, gnw, gne, gsw, gse, tnw, tne, tsw, tse⟩ := h
    rw [prune]
    split
    · show 1 ≤ r
      omega
    · refine ⟨h1, h2, ?_, ?_, ?_, ?_, ihnw tnw, ihne tne, ihsw tsw, ihse tse⟩ <;>
        simp only [prune_resolution, prune_x, prune_y] <;> assumption

/-- The helper `prune` keeps the colour invariant. -/
theorem prune_averaged (tolerance : Int) (n : QuadtreeNode) :
    n.Averaged → (n.prune tolerance).Averaged := by
  induction n with
  | leaf e x y r => intro h; exact h
  | node nw ne sw se e x y r ihnw ihne ihsw ihse =>
    intro h
    obtain ⟨he, anw, ane, asw, ase⟩ := h
    rw [prune]
    split
    · exact True.intro
    · refine ⟨?_, ihnw anw, ihne ane, ihsw asw, ihse ase⟩
      rw [prune_element_of_averaged _ _ anw, prune_element_of_averaged _ _ ane,
        prune_element_of_averaged _ _ asw, prune_element_of_averaged _ _ ase]
      exact he

/-- The helper `clockwiseRotate` keeps the colour invariant. -/
theorem clockwiseRotate_averaged (n : QuadtreeNode) :
    ∀ x y : Int, n.Averaged → (n.clockwiseRotate x y).Averaged := by
  induction n with
  | leaf e lx ly r => intro x y h; exact h
  | node nw ne sw se e nx ny r ihnw ihne ihsw ihse =>
    intro x y h
    obtain ⟨he, anw, ane, asw, ase⟩ := h
    refine ⟨?_, ihsw _ _ asw, ihnw _ _ anw, ihse _ _ ase, ihne _ _ ane⟩
    simp only [clockwiseRotate_element]
    rw [averageColor_rotate]
    exact he

end QuadtreeNode

namespace Quadtree

/-- The public `prune` keeps a tree well formed. -/
theorem prune_wellFormed (t : Quadtree) (tolerance : Int) (h : t.WellFormed) :
    (t.prune tolerance).WellFormed := by
  cases hroot : t.root with
  | none => simp [prune, hroot, WellFormed]
  | some root =>
    simp only [WellFormed, hroot] at h
    simp only [prune, hroot, WellFormed, QuadtreeNode.prune_x, QuadtreeNode.prune_y]
    exact ⟨⟨QuadtreeNode.prune_tiled _ _ h.1.1, QuadtreeNode.prune_averaged _ _ h.1.2⟩, h.2⟩

/-- The public `clockwiseRotate` keeps a tree well formed. -/
theorem clockwiseRotate_wellFormed (t : Quadtree) (h : t.WellFormed) :
    t.clockwiseRotate.WellFormed := by
  cases hroot : t.root with
  | none => simp [clockwiseRotate, hroot, WellFormed]
  | some root =>
    simp only [WellFormed, hroot] at h
    simp only [clockwiseRotate, hroot, WellFormed, QuadtreeNode.clockwiseRotate_x,
      QuadtreeNode.clockwiseRotate_y]
    exact ⟨⟨QuadtreeNode.clockwiseRotate_tiled _ _ _ h.1.1,
      QuadtreeNode.clockwiseRotate_averaged _ _ _ h.1.2⟩, h.2⟩

end Quadtree

/-! ## Lookup and decompression agree -/

/-- C11. Lookup/decompress consistency: for a non-empty tree of root side `d`,
`decompress()` is a `d × d` image and its pixel at every `(x, y)` with `0 ≤ x, y < d` is
`getPixel(x, y)`. -/
theorem lookup_decompress_consistency (t : Quadtree) (root : QuadtreeNode) (d : Int)
    (hroot : t.root = some root) (hd : root.resolution = d) :
    t.decompress.width = d ∧ t.decompress.height = d ∧
    ∀ x y : Int, 0 ≤ x → x < d → 0 ≤ y → y < d →
      t.decompress.pixel x y = t.getPixel x y := by
  subst hd
  exact Quadtree.decompress_some t root hroot

theorem lookup_decompress_consistency_witness :
    ((sampleTree4.prune 8).root = some (sampleRoot4.prune 8) ∧
      (sampleRoot4.prune 8).resolution = 4) ∧
    ((sampleTree4.prune 8).decompress.width = 4 ∧ (sampleTree4.prune 8).decompress.height = 4 ∧
    ∀ x y : Int, 0 ≤ x → x < 4 → 0 ≤ y → y < 4 →
      (sampleTree4.prune 8).decompress.pixel x y = (sampleTree4.prune 8).getPixel x y) :=
  ⟨by decide, lookup_decompress_consistency (sampleTree4.prune 8) (sampleRoot4.prune 8) 4
    rfl rfl⟩

/-! ## Tolerances below zero and the empty tree -/

/-- C14, as stated, fails on the code: on the 2 × 2 sample tree `-1 ≤ 0` but
`pruneSize(-1) = 0` is smaller than `pruneSize(0) = 4`. -/
theorem prune_monotone_all_counterexample :
    ¬ (∀ (t : Quadtree) (t1 t2 : Int), t1 ≤ t2 → t.pruneSize t1 ≥ t.pruneSize t2) := by
  intro h
  exact absurd (h sampleTree2 (-1) 0 (by decide)) (by decide)

/-- C14, amended. Prune monotonicity over all integer tolerances, except across zero on a
non-empty tree: for every tree and all integers `t1 ≤ t2` such that `0 ≤ t1`, or `t2 < 0`,
or the tree is empty, `pruneSize(t1) ≥ pruneSize(t2)`. -/
theorem prune_monotone_same_sign (t : Quadtree) (t1 t2 : Int) (h12 : t1 ≤ t2)
    (hside : 0 ≤ t1 ∨ t2 < 0 ∨ t.root = none) : t.pruneSize t1 ≥ t.pruneSize t2 := by
  rcases hside with h | h | h
  · exact Quadtree.pruneSize_mono_tree t t1 t2 h h12
  · have n1 : ¬ t1 ≥ 0 := by omega
    have n2 : ¬ t2 ≥ 0 := by omega
    cases hroot : t.root with
    | none => simp [Quadtree.pruneSize, hroot]
    | some root => simp [Quadtree.pruneSize, hroot, n1, n2]
  · simp [Quadtree.pruneSize, h]

theorem prune_monotone_same_sign_witness :
    ((-5 : Int) ≤ -2 ∧ ((0 : Int) ≤ -5 ∨ (-2 : Int) < 0 ∨ sampleTree4.root = none)) ∧
    sampleTree4.pruneSize (-5) ≥ sampleTree4.pruneSize (-2) :=
  ⟨by decide, prune_monotone_same_sign sampleTree4 (-5) (-2) (by decide) (by decide)⟩

/-- C15. Negative tolerance: for every tree (empty or not) and every tolerance `t < 0`,
`pruneSize(t)` is 0; and for every non-empty tree and every `t ≥ 0`, `pruneSize(t) ≥ 1`. -/
theorem pruneSize_negative_tolerance :
    (∀ (t : Quadtree) (tolerance : Int), tolerance < 0 → t.pruneSize tolerance = 0) ∧
    (∀ (t : Quadtree) (root : QuadtreeNode) (tolerance : Int), t.root = some root →
      0 ≤ tolerance → t.pruneSize tolerance ≥ 1) := by
  constructor
  · intro t tolerance h
    have n1 : ¬ tolerance ≥ 0 := by omega
    cases hroot : t.root with
    | none => simp [Quadtree.pruneSize, hroot]
    | some root => simp [Quadtree.pruneSize, hroot, n1]
  · intro t root tolerance hroot h
    have p1 : tolerance ≥ 0 := h
    simp only [Quadtree.pruneSize, hroot, if_pos p1]
    exact QuadtreeNode.pruneSize_pos tolerance root

theorem pruneSize_negative_tolerance_witness :
    ((-3 : Int) < 0 ∧ sampleTree4.pruneSize (-3) = 0) ∧
    ((sampleTree4.root = some sampleRoot4 ∧ (0 : Int) ≤ 8) ∧ sampleTree4.pruneSize 8 ≥ 1) :=
  ⟨⟨by decide, pruneSize_negative_tolerance.1 sampleTree4 (-3) (by decide)⟩,
    ⟨by decide, pruneSize_negative_tolerance.2 sampleTree4 sampleRoot4 8 rfl (by decide)⟩⟩

/-- C16. Empty-tree behaviour: on the default-constructed tree `getPixel(x, y)` is the
default colour for all integers `x`, `y`, `pruneSize(t)` is 0 for every `t`,
`idealPrune(n)` is 0 for every `n`, and `prune(t)` and `clockwiseRotate` leave the tree
empty. -/
theorem empty_tree_behaviour :
    (∀ x y : Int, Quadtree.empty.getPixel x y = defaultPixel) ∧
    (∀ tolerance : Int, Quadtree.empty.pruneSize tolerance = 0) ∧
    (∀ numLeaves : Int, Quadtree.empty.idealPrune numLeaves = 0) ∧
    (∀ tolerance : Int, Quadtree.empty.prune tolerance = Quadtree.empty) ∧
    Quadtree.empty.clockwiseRotate = Quadtree.empty :=
  ⟨fun _ _ => rfl, fun _ => rfl, fun _ => rfl, fun _ => rfl, rfl⟩

/-! ## Rotation as a permutation of the child slots -/

namespace QuadtreeNode

theorem setOrigin_x (n : QuadtreeNode) (x y : Int) : (n.setOrigin x y).x = x := by
  cases n <;> rfl

theorem setOrigin_y (n : QuadtreeNode) (x y : Int) : (n.setOrigin x y).y = y := by
  cases n <;> rfl

theorem setOrigin_resolution (n : QuadtreeNode) (x y : Int) :
    (n.setOrigin x y).resolution = n.resolution := by
  cases n <;> rfl

theorem setOrigin_element (n : QuadtreeNode) (x y : Int) :
    (n.setOrigin x y).element = n.element := by
  cases n <;> rfl

/-- The rotation of a node placed at `(x, y)` is the source helper run on the node once
`(x, y)` has been stored in it. -/
theorem clockwiseRotate_eq_rotateStored (n : QuadtreeNode) (x y : Int) :
    n.clockwiseRotate x y = (n.setOrigin x y).rotateStored := by
  cases n <;> rfl

theorem rotateStored_x (n : QuadtreeNode) : n.rotateStored.x = n.x :=
  clockwiseRotate_x n n.x n.y

theorem rotateStored_y (n : QuadtreeNode) : n.rotateStored.y = n.y :=
  clockwiseRotate_y n n.x n.y

theorem rotateStored_resolution (n : QuadtreeNode) : n.rotateStored.resolution = n.resolution :=
  clockwiseRotate_resolution n n.x n.y

theorem rotateStored_element (n : QuadtreeNode) : n.rotateStored.element = n.element :=
  clockwiseRotate_element n n.x n.y

end QuadtreeNode

/-- C18. Rotation is a clockwise slot permutation: for a node with children `(a, b, c, e)`
in the (northwest, northeast, southwest, southeast) slots, `clockwiseRotate` keeps the
origin, side and colour of the node and gives it the children northwest = rotate(c),
northeast = rotate(a), southwest = rotate(e), southeast = rotate(b), where each child is
rotated after its origin has been recomputed from the origin and half side of the parent
for its new slot; each rotated child keeps its side and colour and has the origin of its
new slot; and a childless node is returned unchanged. -/
theorem rotation_slot_permutation :
    (∀ (a b c e : QuadtreeNode) (el : RGBAPixel) (x y r : Int),
      (QuadtreeNode.node a b c e el x y r).rotateStored =
        QuadtreeNode.node (c.setOrigin x y).rotateStored
          (a.setOrigin (x + r.tdiv 2) y).rotateStored
          (e.setOrigin x (y + r.tdiv 2)).rotateStored
          (b.setOrigin (x + r.tdiv 2) (y + r.tdiv 2)).rotateStored el x y r) ∧
    (∀ (m : QuadtreeNode) (x y : Int),
      (m.setOrigin x y).rotateStored.resolution = m.resolution ∧
      (m.setOrigin x y).rotateStored.element = m.element ∧
      (m.setOrigin x y).rotateStored.x = x ∧ (m.setOrigin x y).rotateStored.y = y) ∧
    (∀ (el : RGBAPixel) (x y r : Int),
      (QuadtreeNode.leaf el x y r).rotateStored = QuadtreeNode.leaf el x y r) ∧
    (∀ (t : Quadtree) (root : QuadtreeNode), t.root = some root →
      t.clockwiseRotate.root = some root.rotateStored) := by
  refine ⟨?_, ?_, fun _ _ _ _ => rfl, ?_⟩
  · intro a b c e el x y r
    simp only [← QuadtreeNode.clockwiseRotate_eq_rotateStored]
    rfl
  · intro m x y
    rw [QuadtreeNode.rotateStored_resolution, QuadtreeNode.rotateStored_element,
      QuadtreeNode.rotateStored_x, QuadtreeNode.rotateStored_y,
      QuadtreeNode.setOrigin_resolution, QuadtreeNode.setOrigin_element,
      QuadtreeNode.setOrigin_x, QuadtreeNode.setOrigin_y]
    exact ⟨rfl, rfl, rfl, rfl⟩
  · intro t root hroot
    exact Quadtree.clockwiseRotate_root t root hroot

theorem rotation_slot_permutation_witness :
    sampleTree2.root = some sampleRoot2 ∧
    sampleTree2.clockwiseRotate.root = some sampleRoot2.rotateStored :=
  ⟨rfl, rotation_slot_permutation.2.2.2 sampleTree2 sampleRoot2 rfl⟩

/-! ## Deep copy -/

namespace QuadtreeNode

/-- The helper `copy`, started on the node created from the fields of `other`, rebuilds
`other` node for node. -/
theorem copy_new (other : QuadtreeNode) :
    ∀ resolution : Int,
      copy (new other.element other.resolution other.x other.y) other resolution = other := by
  induction other with
  | leaf e x y r => intro _; rfl
  | node nw ne sw se e x y r ihnw ihne ihsw ihse =>
    intro resolution
    rw [copy, ihnw, ihne, ihsw, ihse]
    rfl

end QuadtreeNode

namespace Quadtree

theorem copy_eq (other : Quadtree) : copy other = other := by
  cases other with
  | mk root =>
    cases root with
    | none => rfl
    | some oroot =>
      cases oroot with
      | leaf e x y r => rfl
      | node nw ne sw se e x y r =>
        simp only [copy]
        rw [QuadtreeNode.copy_new]

end Quadtree

/-- C17. Deep copy is node-for-node: `copy` produces a tree equal to its source, that is
with the same shape and, at every node, the same origin, side length and colour (every
node of the embedding has no children or all four); consequently `getPixel`, `decompress`
and `pruneSize` of the copy agree with those of the source on every argument. -/
theorem copy_node_for_node (other : Quadtree) :
    Quadtree.copy other = other ∧
    (∀ p : List Quadrant, (Quadtree.copy other).descend p = other.descend p) ∧
    (∀ x y : Int, (Quadtree.copy other).getPixel x y = other.getPixel x y) ∧
    (Quadtree.copy other).decompress = other.decompress ∧
    (∀ tolerance : Int, (Quadtree.copy other).pruneSize tolerance = other.pruneSize tolerance) := by
  rw [Quadtree.copy_eq]
  exact ⟨rfl, fun _ => rfl, fun _ _ => rfl, rfl, fun _ => rfl⟩

/-! ## The structure of a built tree -/

theorem toChannel_val_of_lt (v : Nat) (h : v < 256) : (toChannel v).val = v := by
  simp only [toChannel]
  omega

theorem isAverage_averageColor (nw ne sw se : RGBAPixel) :
    IsAverage (averageColor nw ne sw se) nw ne sw se := by
  simp only [IsAverage, averageColor]
  refine ⟨toChannel_val_of_lt _ ?_, toChannel_val_of_lt _ ?_, toChannel_val_of_lt _ ?_⟩ <;> omega

theorem isAverage_iff (e nw ne sw se : RGBAPixel) :
    IsAverage e nw ne sw se ↔ e = averageColor nw ne sw se := by
  constructor
  · intro h
    have h2 := isAverage_averageColor nw ne sw se
    obtain ⟨a1, a2, a3⟩ := h
    obtain ⟨b1, b2, b3⟩ := h2
    generalize averageColor nw ne sw se = m at b1 b2 b3 ⊢
    cases e with
    | mk er eg eb =>
      cases m with
      | mk mr mg mb =>
        simp only at a1 a2 a3 b1 b2 b3
        have r1 : er = mr := Fin.ext (by omega)
        have r2 : eg = mg := Fin.ext (by omega)
        have r3 : eb = mb := Fin.ext (by omega)
        rw [r1, r2, r3]
  · intro h
    rw [h]
    exact isAverage_averageColor nw ne sw se

namespace QuadtreeNode

theorem AllNodes.imp {P Q : QuadtreeNode → Prop} (hpq : ∀ m, P m → Q m) (n : QuadtreeNode) :
    AllNodes P n → AllNodes Q n := by
  induction n with
  | leaf e x y r => exact hpq _
  | node nw ne sw se e x y r ihnw ihne ihsw ihse =>
    intro h
    exact ⟨hpq _ h.1, ihnw h.2.1, ihne h.2.2.1, ihsw h.2.2.2.1, ihse h.2.2.2.2⟩

/-- The property holds at every node exactly when it holds at the end of every path. -/
theorem allNodes_iff_descend (P : QuadtreeNode → Prop) (n : QuadtreeNode) :
    AllNodes P n ↔ ∀ (p : List Quadrant) (m : QuadtreeNode), n.descend p = some m → P m := by
  induction n with
  | leaf e x y r =>
    constructor
    · intro h p m hm
      cases p with
      | nil => simp only [descend, Option.some.injEq] at hm; rw [← hm]; exact h
      | cons q p => simp [descend, child] at hm
    · intro h
      exact h [] _ rfl
  | node nw ne sw se e x y r ihnw ihne ihsw ihse =>
    constructor
    · intro h p m hm
      cases p with
      | nil => simp only [descend, Option.some.injEq] at hm; rw [← hm]; exact h.1
      | cons q p =>
        cases q with
        | nw => exact ihnw.mp h.2.1 p m hm
        | ne => exact ihne.mp h.2.2.1 p m hm
        | sw => exact ihsw.mp h.2.2.2.1 p m hm
        | se => exact ihse.mp h.2.2.2.2 p m hm
    · intro h
      refine ⟨h [] _ rfl, ihnw.mpr ?_, ihne.mpr ?_, ihsw.mpr ?_, ihse.mpr ?_⟩
      · intro p m hm; exact h (.nw :: p) m hm
      · intro p m hm; exact h (.ne :: p) m hm
      · intro p m hm; exact h (.sw :: p) m hm
      · intro p m hm; exact h (.se :: p) m hm

theorem consistentNode_of_builtNode (source : PNG) (m : QuadtreeNode) :
    BuiltNode source m → ConsistentNode m := by
  cases m with
  | leaf e x y r => intro _; exact True.intro
  | node nw ne sw se e x y r => intro h; exact h

theorem consistent_of_built (source : PNG) (n : QuadtreeNode) (h : n.Built source) :
    n.Consistent :=
  AllNodes.imp (consistentNode_of_builtNode source) n h

/-- Whenever the helper `buildTree` returns, the node has the requested origin and side
and the built structure. -/
theorem buildTree_built (source : PNG) :
    ∀ (fuel : Nat) (resolution x y : Int) (n : QuadtreeNode),
      buildTree source fuel resolution x y = some n →
        n.x = x ∧ n.y = y ∧ n.resolution = resolution ∧ n.Built source := by
  intro fuel
  induction fuel with
  | zero => intro resolution x y n h; simp [buildTree] at h
  | succ f ih =>
    intro resolution x y n h
    rw [buildTree] at h
    by_cases hone : resolution = 1
    · rw [if_pos hone] at h
      rw [← Option.some.inj h]
      exact ⟨rfl, rfl, rfl, hone, rfl⟩
    · rw [if_neg hone] at h
      cases hnw : buildTree source f (resolution.tdiv 2) x y with
      | none => simp [hnw] at h
      | some nw =>
        cases hne : buildTree source f (resolution.tdiv 2) (x + resolution.tdiv 2) y with
        | none => simp [hnw, hne] at h
        | some ne =>
          cases hsw : buildTree source f (resolution.tdiv 2) x (y + resolution.tdiv 2) with
          | none => simp [hnw, hne, hsw] at h
          | some sw =>
            cases hse : buildTree source f (resolution.tdiv 2) (x + resolution.tdiv 2)
                (y + resolution.tdiv 2) with
            | none => simp [hnw, hne, hsw, hse] at h
            | some se =>
              simp only [hnw, hne, hsw, hse, Option.bind_eq_bind, Option.some_bind,
                Option.some.injEq] at h
              obtain ⟨a1, a2, a3, a4⟩ := ih _ _ _ _ hnw
              obtain ⟨b1, b2, b3, b4⟩ := ih _ _ _ _ hne
              obtain ⟨c1, c2, c3, c4⟩ := ih _ _ _ _ hsw
              obtain ⟨d1, d2, d3, d4⟩ := ih _ _ _ _ hse
              rw [← h]
              exact ⟨rfl, rfl, rfl, ⟨⟨a3, a1, a2⟩, ⟨b3, b1, b2⟩, ⟨c3, c1, c2⟩, ⟨d3, d1, d2⟩,
                isAverage_averageColor _ _ _ _⟩, a4, b4, c4, d4⟩

end QuadtreeNode

/-- C12. Build structure: for every image and power-of-two side `d = 2 ^ k` within the
image bounds, `buildTree` yields a root at origin `(0, 0)` with side `d`; in the tree every
childless node has side 1 and the colour of the source pixel at its origin, and every node
with children has four children of half its side at the origins `(ox, oy)`,
`(ox + s/2, oy)`, `(ox, oy + s/2)`, `(ox + s/2, oy + s/2)` and, in each channel, the
truncated quotient of the sum of the four children's values by 4. -/
theorem build_structure (source : PNG) (d : Int) (k : Nat) (hd : d = 2 ^ k)
    (hw : d ≤ source.width) (hh : d ≤ source.height) :
    ∃ root, Quadtree.buildTree source d = some ⟨some root⟩ ∧
      root.x = 0 ∧ root.y = 0 ∧ root.resolution = d ∧
      ∀ (p : List Quadrant) (m : QuadtreeNode), root.descend p = some m →
        QuadtreeNode.BuiltNode source m := by
  subst hd
  obtain ⟨n, hn, _, _, _, _, _⟩ := Quadtree.buildTree_root_pow source k
  have hb : QuadtreeNode.buildTree source ((2 : Int) ^ k).toNat (2 ^ k) 0 0 = some n := by
    simp only [Quadtree.buildTree, Option.map_eq_some'] at hn
    obtain ⟨a, ha, hq⟩ := hn
    have : a = n := by
      have := congrArg Quadtree.root hq
      exact Option.some.inj this
    rw [← this]; exact ha
  obtain ⟨hx, hy, hr, hbuilt⟩ := QuadtreeNode.buildTree_built source _ _ _ _ n hb
  exact ⟨n, hn, hx, hy, hr, (QuadtreeNode.allNodes_iff_descend _ n).mp hbuilt⟩

theorem build_structure_witness :
    ((2 : Int) = 2 ^ 1 ∧ (2 : Int) ≤ sampleImage2.width ∧ (2 : Int) ≤ sampleImage2.height) ∧
    ∃ root, Quadtree.buildTree sampleImage2 2 = some ⟨some root⟩ ∧
      root.x = 0 ∧ root.y = 0 ∧ root.resolution = 2 ∧
      ∀ (p : List Quadrant) (m : QuadtreeNode), root.descend p = some m →
        QuadtreeNode.BuiltNode sampleImage2 m :=
  ⟨by decide, build_structure sampleImage2 2 1 (by decide) (by decide) (by decide)⟩

/-! ## The invariant is kept by every operation -/

theorem isAverage_rotate (e nw ne sw se : RGBAPixel) (h : IsAverage e nw ne sw se) :
    IsAverage e sw nw se ne := by
  obtain ⟨h1, h2, h3⟩ := h
  refine ⟨?_, ?_, ?_⟩ <;> omega

namespace QuadtreeNode

theorem prune_element_of_consistent (tolerance : Int) (n : QuadtreeNode) (h : n.Consistent) :
    (n.prune tolerance).element = n.element := by
  cases n with
  | leaf e x y r => rfl
  | node nw ne sw se e x y r =>
    rw [prune]
    split
    · exact ((isAverage_iff _ _ _ _ _).mp h.1.2.2.2.2).symm
    · rfl

/-- The helper `prune` keeps the invariant. -/
theorem prune_consistent (tolerance : Int) (n : QuadtreeNode) :
    n.Consistent → (n.prune tolerance).Consistent := by
  induction n with
  | leaf e x y r => intro h; exact h
  | node nw ne sw se e x y r ihnw ihne ihsw ihse =>
    intro h
    obtain ⟨⟨gnw, gne, gsw, gse, havg⟩, cnw, cne, csw, cse⟩ := h
    rw [prune]
    split
    · exact True.intro
    · refine ⟨⟨?_, ?_, ?_, ?_, ?_⟩, ihnw cnw, ihne cne, ihsw csw, ihse cse⟩
      · simp only [prune_resolution, prune_x, prune_y]; exact gnw
      · simp only [prune_resolution, prune_x, prune_y]; exact gne
      · simp only [prune_resolution, prune_x, prune_y]; exact gsw
      · simp only [prune_resolution, prune_x, prune_y]; exact gse
      · rw [prune_element_of_consistent _ _ cnw, prune_element_of_consistent _ _ cne,
          prune_element_of_consistent _ _ csw, prune_element_of_consistent _ _ cse]
        exact havg

/-- The helper `clockwiseRotate` keeps the invariant, wherever the node is placed. -/
theorem clockwiseRotate_consistent (n : QuadtreeNode) :
    ∀ x y : Int, n.Consistent → (n.clockwiseRotate x y).Consistent := by
  induction n with
  | leaf e lx ly r => intro x y _; exact True.intro
  | node nw ne sw se e nx ny r ihnw ihne ihsw ihse =>
    intro x y h
    obtain ⟨⟨gnw, gne, gsw, gse, havg⟩, cnw, cne, csw, cse⟩ := h
    refine ⟨⟨?_, ?_, ?_, ?_, ?_⟩, ihsw _ _ csw, ihnw _ _ cnw, ihse _ _ cse, ihne _ _ cne⟩
    · exact ⟨by rw [clockwiseRotate_resolution]; exact gsw.1, clockwiseRotate_x _ _ _,
        clockwiseRotate_y _ _ _⟩
    · exact ⟨by rw [clockwiseRotate_resolution]; exact gnw.1, clockwiseRotate_x _ _ _,
        clockwiseRotate_y _ _ _⟩
    · exact ⟨by rw [clockwiseRotate_resolution]; exact gse.1, clockwiseRotate_x _ _ _,
        clockwiseRotate_y _ _ _⟩
    · exact ⟨by rw [clockwiseRotate_resolution]; exact gne.1, clockwiseRotate_x _ _ _,
        clockwiseRotate_y _ _ _⟩
    · simp only [clockwiseRotate_element]
      exact isAverage_rotate _ _ _ _ _ havg

end QuadtreeNode

/-- C19. Well-formedness is an invariant of every operation: the predicate "the four
children of a node of origin `(ox, oy)` and side `s` have side `s/2` and origins `(ox, oy)`,
`(ox + s/2, oy)`, `(ox, oy + s/2)`, `(ox + s/2, oy + s/2)`, and the colour of every node
with children is the channel-wise truncated average of the colours of its four children"
(every node of the embedding has no children or four) holds for every tree that `buildTree`
returns, and is preserved by `clockwiseRotate` and by `prune(t)` for every `t`. -/
theorem invariant_kept :
    (∀ (source : PNG) (resolution : Int) (t : Quadtree),
      Quadtree.buildTree source resolution = some t → t.Consistent) ∧
    (∀ t : Quadtree, t.Consistent → t.clockwiseRotate.Consistent) ∧
    (∀ (t : Quadtree) (tolerance : Int), t.Consistent → (t.prune tolerance).Consistent) := by
  refine ⟨?_, ?_, ?_⟩
  · intro source resolution t h
    simp only [Quadtree.buildTree, Option.map_eq_some'] at h
    obtain ⟨n, hn, hq⟩ := h
    rw [← hq]
    exact QuadtreeNode.consistent_of_built source n
      (QuadtreeNode.buildTree_built source _ _ _ _ n hn).2.2.2
  · intro t h
    cases hroot : t.root with
    | none => simp [Quadtree.clockwiseRotate, hroot, Quadtree.Consistent]
    | some root =>
      simp only [Quadtree.Consistent, hroot] at h
      simp only [Quadtree.clockwiseRotate, hroot, Quadtree.Consistent]
      exact QuadtreeNode.clockwiseRotate_consistent root _ _ h
  · intro t tolerance h
    cases hroot : t.root with
    | none => simp [Quadtree.prune, hroot, Quadtree.Consistent]
    | some root =>
      simp only [Quadtree.Consistent, hroot] at h
      simp only [Quadtree.prune, hroot, Quadtree.Consistent]
      exact QuadtreeNode.prune_consistent tolerance root h

theorem invariant_kept_witness :
    (Quadtree.buildTree sampleImage2 2 = some sampleTree2 ∧ sampleTree2.Consistent) ∧
    (sampleTree4.Consistent ∧ sampleTree4.clockwiseRotate.Consistent) ∧
    (sampleTree4.Consistent ∧ (sampleTree4.prune 8).Consistent) :=
  ⟨⟨by decide, invariant_kept.1 sampleImage2 2 sampleTree2 (by decide)⟩,
    ⟨by decide, invariant_kept.2.1 sampleTree4 (by decide)⟩,
    ⟨by decide, invariant_kept.2.2 sampleTree4 8 (by decide)⟩⟩

/-! ## Which nodes a prune merges -/

namespace QuadtreeNode

/-- The test `checkTolerance` against a colour holds exactly when every leaf of the
subtree is within the tolerance of that colour. -/
theorem checkTolerance_iff (e : RGBAPixel) (tolerance : Int) (n : QuadtreeNode) :
    checkTolerance e tolerance n = true ↔ ∀ l ∈ n.leaves, colorDiff l.element e ≤ tolerance := by
  induction n with
  | leaf c x y r => simp [checkTolerance, leaves, element]
  | node nw ne sw se c x y r ihnw ihne ihsw ihse =>
    simp only [checkTolerance, Bool.and_eq_true, ihnw, ihne, ihsw, ihse, leaves,
      List.mem_append]
    constructor
    · rintro ⟨⟨⟨a, b⟩, c⟩, d⟩ l hl
      rcases hl with ((m | m) | m) | m
      · exact a l m
      · exact b l m
      · exact c l m
      · exact d l m
    · intro h
      exact ⟨⟨⟨fun l m => h l (Or.inl (Or.inl (Or.inl m))),
        fun l m => h l (Or.inl (Or.inl (Or.inr m)))⟩,
        fun l m => h l (Or.inl (Or.inr m))⟩, fun l m => h l (Or.inr m)⟩

/-- The prune test of a node with children is the condition `WithinTolerance`. -/
theorem checkTolerance_self_iff (tolerance : Int) (n : QuadtreeNode) :
    checkTolerance n.element tolerance n = true ↔ n.WithinTolerance tolerance :=
  checkTolerance_iff n.element tolerance n

theorem prune_node_of_within (tolerance : Int) (nw ne sw se : QuadtreeNode) (e : RGBAPixel)
    (x y r : Int) (h : (node nw ne sw se e x y r).WithinTolerance tolerance) :
    (node nw ne sw se e x y r).prune tolerance =
      leaf (averageColor nw.element ne.element sw.element se.element) x y r := by
  have hc : checkTolerance e tolerance (node nw ne sw se e x y r) = true :=
    (checkTolerance_self_iff tolerance (node nw ne sw se e x y r)).mpr h
  rw [prune, if_pos hc]

theorem prune_node_of_not_within (tolerance : Int) (nw ne sw se : QuadtreeNode) (e : RGBAPixel)
    (x y r : Int) (h : ¬ (node nw ne sw se e x y r).WithinTolerance tolerance) :
    (node nw ne sw se e x y r).prune tolerance =
      node (nw.prune tolerance) (ne.prune tolerance) (sw.prune tolerance)
        (se.prune tolerance) e x y r := by
  have hc : ¬ checkTolerance e tolerance (node nw ne sw se e x y r) = true :=
    fun c => h ((checkTolerance_self_iff tolerance (node nw ne sw se e x y r)).mp c)
  rw [prune, if_neg hc]

theorem descend_cons (n : QuadtreeNode) (q : Quadrant) (p : List Quadrant) :
    n.descend (q :: p) = (n.child q).bind fun c => c.descend p := by
  simp only [descend]
  cases n.child q <;> rfl

theorem child_prune_of_not_within (tolerance : Int) (nw ne sw se : QuadtreeNode)
    (e : RGBAPixel) (x y r : Int)
    (h : ¬ (node nw ne sw se e x y r).WithinTolerance tolerance) (q : Quadrant) :
    ((node nw ne sw se e x y r).prune tolerance).child q =
      ((node nw ne sw se e x y r).child q).map (prune tolerance) := by
  rw [prune_node_of_not_within tolerance nw ne sw se e x y r h]
  cases q <;> rfl

/-- When no proper ancestor of the node at path `p` passes the prune test, the pruned tree
holds at `p` the prune of the original node at `p`. -/
theorem descend_prune_of_noAncestor (tolerance : Int) (p : List Quadrant) :
    ∀ root : QuadtreeNode, NoAncestorWithin tolerance root p →
      (root.prune tolerance).descend p = (root.descend p).map (prune tolerance) := by
  induction p with
  | nil => intro root _; rfl
  | cons q p ih =>
    intro root hno
    cases root with
    | leaf e x y r => rfl
    | node nw ne sw se e x y r =>
      have hroot : ¬ (node nw ne sw se e x y r).WithinTolerance tolerance :=
        hno [] (q :: p) _ rfl (by simp) rfl
      rw [descend_cons, descend_cons, child_prune_of_not_within tolerance _ _ _ _ _ _ _ _ hroot]
      cases hc : (node nw ne sw se e x y r).child q with
      | none => rfl
      | some c =>
        simp only [Option.map_some', Option.some_bind]
        apply ih c
        intro q2 s a hp hs ha
        apply hno (q :: q2) s a (by rw [hp]; rfl) hs
        rw [descend_cons, hc]
        exact ha

/-- When a proper ancestor of the node at path `p` passes the prune test, the pruned tree
has no node at `p`. -/
theorem descend_prune_of_ancestor (tolerance : Int) (p : List Quadrant) :
    ∀ root : QuadtreeNode, ¬ NoAncestorWithin tolerance root p →
      (root.prune tolerance).descend p = none := by
  induction p with
  | nil =>
    intro root hno
    exact absurd (fun q s a hp hs _ => by
      have : s = [] := (List.append_eq_nil.mp hp.symm).2
      exact absurd this hs) hno
  | cons q p ih =>
    intro root hno
    cases root with
    | leaf e x y r => rfl
    | node nw ne sw se e x y r =>
      by_cases hroot : (node nw ne sw se e x y r).WithinTolerance tolerance
      · rw [prune_node_of_within tolerance _ _ _ _ _ _ _ _ hroot]
        rfl
      · rw [descend_cons, child_prune_of_not_within tolerance _ _ _ _ _ _ _ _ hroot]
        cases hc : (node nw ne sw se e x y r).child q with
        | none => rfl
        | some c =>
          simp only [Option.map_some', Option.some_bind]
          apply ih c
          intro hnoc
          apply hno
          intro q2 s a hp hs ha
          cases q2 with
          | nil =>
            simp only [descend, Option.some.injEq] at ha
            rw [← ha]; exact hroot
          | cons q3 q4 =>
            have hp2 : q :: p = q3 :: (q4 ++ s) := hp
            have e1 : q = q3 := (List.cons.inj hp2).1
            have e2 : p = q4 ++ s := (List.cons.inj hp2).2
            rw [descend_cons, ← e1, hc] at ha
            exact hnoc q4 s a e2 hs ha

end QuadtreeNode

/-- C13. Non-iterative prune decision: for every tree, every tolerance `t ≥ 0` and every
node `n` with children at a path `p` of the original tree, `prune(t)` leaves a childless
node at `p` exactly when (i) every leaf of the original subtree of `n` has a colour
difference of at most `t` from the colour of `n` and (ii) no proper ancestor of `n`
satisfies (i) on its own original subtree; and a node that is still present at `p`
without satisfying (i) and (ii) keeps four children, which are the prunes of the original
children. -/
theorem prune_decision (t : Quadtree) (tolerance : Int) (p : List Quadrant)
    (nw ne sw se : QuadtreeNode) (e : RGBAPixel) (x y r : Int) (root : QuadtreeNode)
    (_htol : 0 ≤ tolerance) (hroot : t.root = some root)
    (hn : t.descend p = some (QuadtreeNode.node nw ne sw se e x y r)) :
    ((∃ m, (t.prune tolerance).descend p = some m ∧ m.hasChildren = false) ↔
      ((QuadtreeNode.node nw ne sw se e x y r).WithinTolerance tolerance ∧
        QuadtreeNode.NoAncestorWithin tolerance root p)) ∧
    (∀ m, (t.prune tolerance).descend p = some m →
      ¬ ((QuadtreeNode.node nw ne sw se e x y r).WithinTolerance tolerance ∧
        QuadtreeNode.NoAncestorWithin tolerance root p) →
      m = QuadtreeNode.node (nw.prune tolerance) (ne.prune tolerance) (sw.prune tolerance)
        (se.prune tolerance) e x y r) := by
  have hd : t.descend p = root.descend p := by simp [Quadtree.descend, hroot]
  have hp : (t.prune tolerance).descend p = (root.prune tolerance).descend p := by
    simp [Quadtree.descend, Quadtree.prune, hroot]
  rw [hd] at hn
  rw [hp]
  by_cases hno : QuadtreeNode.NoAncestorWithin tolerance root p
  · rw [QuadtreeNode.descend_prune_of_noAncestor tolerance p root hno, hn]
    simp only [Option.map_some', Option.some.injEq]
    by_cases hw : (QuadtreeNode.node nw ne sw se e x y r).WithinTolerance tolerance
    · rw [QuadtreeNode.prune_node_of_within tolerance _ _ _ _ _ _ _ _ hw]
      refine ⟨⟨fun _ => ⟨hw, hno⟩, fun _ => ⟨_, rfl, rfl⟩⟩, ?_⟩
      intro m _ hnot
      exact absurd ⟨hw, hno⟩ hnot
    · rw [QuadtreeNode.prune_node_of_not_within tolerance _ _ _ _ _ _ _ _ hw]
      refine ⟨⟨?_, fun h => absurd h.1 hw⟩, ?_⟩
      · rintro ⟨m, hm, hc⟩
        rw [← hm] at hc
        simp [QuadtreeNode.hasChildren] at hc
      · intro m hm _
        exact hm.symm
  · rw [QuadtreeNode.descend_prune_of_ancestor tolerance p root hno]
    refine ⟨⟨?_, fun h => absurd h.2 hno⟩, ?_⟩
    · rintro ⟨m, hm, _⟩
      simp at hm
    · intro m hm
      simp at hm

theorem prune_decision_witness :
    ((0 : Int) ≤ 8 ∧ sampleTree4.root = some sampleRoot4 ∧
      sampleTree4.descend [Quadrant.nw] =
        some (QuadtreeNode.node (.leaf ⟨10, 10, 10⟩ 0 0 1) (.leaf ⟨12, 10, 10⟩ 1 0 1)
          (.leaf ⟨10, 12, 10⟩ 0 1 1) (.leaf ⟨12, 12, 10⟩ 1 1 1) ⟨11, 11, 10⟩ 0 0 2)) ∧
    (((∃ m, (sampleTree4.prune 8).descend [Quadrant.nw] = some m ∧ m.hasChildren = false) ↔
      ((QuadtreeNode.node (.leaf ⟨10, 10, 10⟩ 0 0 1) (.leaf ⟨12, 10, 10⟩ 1 0 1)
          (.leaf ⟨10, 12, 10⟩ 0 1 1) (.leaf ⟨12, 12, 10⟩ 1 1 1)
          ⟨11, 11, 10⟩ 0 0 2).WithinTolerance 8 ∧
        QuadtreeNode.NoAncestorWithin 8 sampleRoot4 [Quadrant.nw])) ∧
    (∀ m, (sampleTree4.prune 8).descend [Quadrant.nw] = some m →
      ¬ ((QuadtreeNode.node (.leaf ⟨10, 10, 10⟩ 0 0 1) (.leaf ⟨12, 10, 10⟩ 1 0 1)
          (.leaf ⟨10, 12, 10⟩ 0 1 1) (.leaf ⟨12, 12, 10⟩ 1 1 1)
          ⟨11, 11, 10⟩ 0 0 2).WithinTolerance 8 ∧
        QuadtreeNode.NoAncestorWithin 8 sampleRoot4 [Quadrant.nw]) →
      m = QuadtreeNode.node ((QuadtreeNode.leaf ⟨10, 10, 10⟩ 0 0 1).prune 8)
        ((QuadtreeNode.leaf ⟨12, 10, 10⟩ 1 0 1).prune 8)
        ((QuadtreeNode.leaf ⟨10, 12, 10⟩ 0 1 1).prune 8)
        ((QuadtreeNode.leaf ⟨12, 12, 10⟩ 1 1 1).prune 8) ⟨11, 11, 10⟩ 0 0 2)) :=
  ⟨by decide, prune_decision sampleTree4 8 [Quadrant.nw] _ _ _ _ _ _ _ _ sampleRoot4
    (by decide) rfl rfl⟩

/-! ## A second prune can merge more -/

/-- The sample tree `sampleTreeStripes` is the tree that `buildTree` returns for
`sampleImageStripes`. -/
theorem buildTree_sampleImageStripes :
    Quadtree.buildTree sampleImageStripes 4 = some sampleTreeStripes := by
  decide

/-- C20. Prune is not idempotent: there are a well-formed tree and a tolerance `t ≥ 0` for
which the root is not prunable on the original leaves but is prunable on the leaves left
by `prune(t)`, so that a second `prune(t)` merges it and the leaf count after the second
prune is strictly smaller than after the first. -/
theorem prune_not_idempotent :
    ∃ (t : Quadtree) (root : QuadtreeNode) (tolerance : Int),
      t.root = some root ∧ t.WellFormed ∧ 0 ≤ tolerance ∧
      ¬ root.WithinTolerance tolerance ∧ (root.prune tolerance).WithinTolerance tolerance ∧
      (root.prune tolerance).hasChildren = true ∧
      ((root.prune tolerance).prune tolerance).hasChildren = false ∧
      ((t.prune tolerance).prune tolerance).leafCount < (t.prune tolerance).leafCount :=
  ⟨sampleTreeStripes, sampleRootStripes, 100, rfl, by decide, by decide, by decide, by decide,
    by decide, by decide, by decide⟩

/-! ## Full collapse at the largest tolerance -/

/-- C21. Full collapse at the maximum tolerance: the sum of squared channel differences of
any two colours (channels are 8-bit, in 0..255) is at most `3 × 255² = 195075`; hence for
every non-empty tree `pruneSize(195075) = 1`, and for every `numLeaves ≥ 1` a tolerance
that meets the budget lies in the search domain `[0, 195075]`. -/
theorem full_collapse_at_max :
    (3 * 255 ^ 2 = (195075 : Int)) ∧
    (∀ a b : RGBAPixel, colorDiff a b ≤ 195075) ∧
    (∀ (t : Quadtree) (root : QuadtreeNode), t.root = some root → t.pruneSize 195075 = 1) ∧
    (∀ (t : Quadtree) (root : QuadtreeNode) (numLeaves : Int), t.root = some root →
      1 ≤ numLeaves →
      ∃ tolerance : Int, 0 ≤ tolerance ∧ tolerance ≤ 195075 ∧
        t.pruneSize tolerance ≤ numLeaves) := by
  refine ⟨by norm_num, ?_, ?_, ?_⟩
  · intro a b
    have := colorDiff_le a b
    omega
  · intro t root hroot
    exact Quadtree.pruneSize_max_tree t root hroot 195075 (by decide)
  · intro t root numLeaves hroot hn
    refine ⟨195075, by decide, by decide, ?_⟩
    rw [Quadtree.pruneSize_max_tree t root hroot 195075 (by decide)]
    exact hn

theorem full_collapse_at_max_witness :
    (sampleTree4.root = some sampleRoot4 ∧ sampleTree4.pruneSize 195075 = 1) ∧
    ((sampleTree4.root = some sampleRoot4 ∧ (1 : Int) ≤ 3) ∧
      ∃ tolerance : Int, 0 ≤ tolerance ∧ tolerance ≤ 195075 ∧
        sampleTree4.pruneSize tolerance ≤ 3) :=
  ⟨⟨rfl, full_collapse_at_max.2.2.1 sampleTree4 sampleRoot4 rfl⟩,
    ⟨by decide, full_collapse_at_max.2.2.2 sampleTree4 sampleRoot4 3 rfl (by decide)⟩⟩

/-! ## A budget below one leaf -/

namespace Quadtree

theorem pruneSize_pos_tree (t : Quadtree) (root : QuadtreeNode) (hroot : t.root = some root)
    (tolerance : Int) (h : 0 ≤ tolerance) : 1 ≤ t.pruneSize tolerance := by
  have h0 : tolerance ≥ 0 := h
  simp only [pruneSize, hroot, if_pos h0]
  exact QuadtreeNode.pruneSize_pos tolerance root

/-- On a non-empty tree no tolerance reaches a budget below one leaf, so the search moves
`lower` up at every call and returns `upper + 1`. -/
theorem idealPruneBounds_budget_lt_one (t : Quadtree) (root : QuadtreeNode)
    (hroot : t.root = some root) :
    ∀ lower upper numLeaves : Int, numLeaves < 1 → 0 ≤ lower → lower ≤ upper + 1 →
      t.idealPruneBounds lower upper numLeaves = upper + 1 := by
  intro lower upper numLeaves
  induction lower, upper, numLeaves using Quadtree.idealPruneBounds.induct t with
  | case1 lower upper numLeaves hgt =>
    intro _ _ hle
    rw [idealPruneBounds, dif_pos hgt]
    omega
  | case2 lower upper hle tol heq ih =>
    intro hn h0 _
    have hb := tdiv_two_bounds (lower + upper)
    have hp := pruneSize_pos_tree t root hroot ((lower + upper).tdiv 2) (by omega)
    have : t.pruneSize ((lower + upper).tdiv 2) < 1 := hn
    omega
  | case3 lower upper hle tol hneq =>
    intro hn h0 _
    have hb := tdiv_two_bounds (lower + upper)
    have hp := pruneSize_pos_tree t root hroot ((lower + upper).tdiv 2) (by omega)
    have : t.pruneSize ((lower + upper).tdiv 2) < 1 := hn
    omega
  | case4 lower upper numLeaves hle tol hne hgt ih =>
    intro hn h0 _
    have hb := tdiv_two_bounds (lower + upper)
    rw [idealPruneBounds, dif_neg hle]
    simp only [if_neg (show ¬ t.pruneSize ((lower + upper).tdiv 2) = numLeaves from hne),
      if_pos (show t.pruneSize ((lower + upper).tdiv 2) > numLeaves from hgt)]
    exact ih hn (by omega) (by omega)
  | case5 lower upper numLeaves hle tol hne hngt hlt ih =>
    intro hn h0 _
    have hb := tdiv_two_bounds (lower + upper)
    have hp := pruneSize_pos_tree t root hroot ((lower + upper).tdiv 2) (by omega)
    have : t.pruneSize ((lower + upper).tdiv 2) < numLeaves := hlt
    omega
  | case6 lower upper numLeaves hle tol hne hngt hnlt =>
    intro _ _ _
    exfalso
    have a1 : ¬ t.pruneSize ((lower + upper).tdiv 2) = numLeaves := hne
    have a2 : ¬ t.pruneSize ((lower + upper).tdiv 2) > numLeaves := hngt
    have a3 : ¬ t.pruneSize ((lower + upper).tdiv 2) < numLeaves := hnlt
    omega

/-- The public search on a non-empty tree with a budget below one leaf returns 195076. -/
theorem idealPrune_budget_lt_one (t : Quadtree) (root : QuadtreeNode)
    (hroot : t.root = some root) (numLeaves : Int) (hn : numLeaves < 1) :
    t.idealPrune numLeaves = 195076 := by
  have h : t.idealPrune numLeaves = t.idealPruneBounds 0 (255 * 255 * 3) numLeaves := by
    simp [idealPrune, hroot]
  rw [h, idealPruneBounds_budget_lt_one t root hroot 0 (255 * 255 * 3) numLeaves hn
    (Int.le_refl 0) (by decide)]
  rfl

end Quadtree


/-! ## The search ends -/

namespace Quadtree

/-- A call of the search that recurses has `lower ≤ upper`, and its recursive call either
lowers `upper`, or keeps `upper` and raises `lower`. -/
theorem idealPruneNext_decrease (t : Quadtree) (lower upper numLeaves l2 u2 : Int)
    (h : t.idealPruneNext lower upper numLeaves = some (l2, u2)) :
    lower ≤ upper ∧ (u2 < upper ∨ (u2 = upper ∧ lower < l2)) ∧
    (0 ≤ lower → 0 ≤ l2) ∧ u2 ≤ upper := by
  have hb := tdiv_two_bounds (lower + upper)
  unfold idealPruneNext at h
  by_cases hgt : lower > upper
  · rw [if_pos hgt] at h
    exact absurd h (by simp)
  · rw [if_neg hgt] at h
    simp only at h
    split at h
    · split at h
      · simp only [Option.some.injEq, Prod.mk.injEq] at h
        omega
      · exact absurd h (by simp)
    · split at h
      · simp only [Option.some.injEq, Prod.mk.injEq] at h
        omega
      · split at h
        · simp only [Option.some.injEq, Prod.mk.injEq] at h
          omega
        · exact absurd h (by simp)

/-- The value of a call that recurses is the value of its recursive call. -/
theorem idealPruneBounds_of_next (t : Quadtree) (lower upper numLeaves l2 u2 : Int)
    (h : t.idealPruneNext lower upper numLeaves = some (l2, u2)) :
    t.idealPruneBounds lower upper numLeaves = t.idealPruneBounds l2 u2 numLeaves := by
  unfold idealPruneNext at h
  rw [idealPruneBounds]
  by_cases hgt : lower > upper
  · rw [if_pos hgt] at h
    exact absurd h (by simp)
  · rw [if_neg hgt] at h
    rw [dif_neg hgt]
    simp only at h ⊢
    split at h
    · rename_i c1
      split at h
      · rename_i c2
        simp only [Option.some.injEq, Prod.mk.injEq] at h
        rw [if_pos c1, if_pos c2, ← h.1, ← h.2]
      · exact absurd h (by simp)
    · rename_i c1
      split at h
      · rename_i c2
        simp only [Option.some.injEq, Prod.mk.injEq] at h
        rw [if_neg c1, if_pos c2, ← h.1, ← h.2]
      · rename_i c2
        split at h
        · rename_i c3
          simp only [Option.some.injEq, Prod.mk.injEq] at h
          rw [if_neg c1, if_neg c2, if_pos c3, ← h.1, ← h.2]
        · exact absurd h (by simp)

/-- The fuel-counted call that recurses spends one unit of fuel on its recursive call. -/
theorem idealPruneFuel_of_next (t : Quadtree) (fuel : Nat) (lower upper numLeaves l2 u2 : Int)
    (h : t.idealPruneNext lower upper numLeaves = some (l2, u2)) :
    t.idealPruneFuel (fuel + 1) lower upper numLeaves = t.idealPruneFuel fuel l2 u2 numLeaves := by
  unfold idealPruneNext at h
  rw [idealPruneFuel]
  by_cases hgt : lower > upper
  · rw [if_pos hgt] at h
    exact absurd h (by simp)
  · rw [if_neg hgt] at h
    rw [if_neg hgt]
    simp only at h ⊢
    split at h
    · rename_i c1
      split at h
      · rename_i c2
        simp only [Option.some.injEq, Prod.mk.injEq] at h
        rw [if_pos c1, if_pos c2, ← h.1, ← h.2]
      · exact absurd h (by simp)
    · rename_i c1
      split at h
      · rename_i c2
        simp only [Option.some.injEq, Prod.mk.injEq] at h
        rw [if_neg c1, if_pos c2, ← h.1, ← h.2]
      · rename_i c2
        split at h
        · rename_i c3
          simp only [Option.some.injEq, Prod.mk.injEq] at h
          rw [if_neg c1, if_neg c2, if_pos c3, ← h.1, ← h.2]
        · exact absurd h (by simp)

/-- The relation "call `a` makes the recursive call `b`" of the search is well founded. -/
theorem idealPruneNext_wellFounded (t : Quadtree) (numLeaves : Int) :
    WellFounded (fun (b a : Int × Int) => t.idealPruneNext a.1 a.2 numLeaves = some b) := by
  have hlex : WellFounded (Prod.Lex (fun a b : Nat => a < b) (fun a b : Nat => a < b)) :=
    WellFounded.prod_lex wellFounded_lt wellFounded_lt
  apply Subrelation.wf ?_ (InvImage.wf
    (fun a : Int × Int => ((a.2 + 1).toNat + (-a.1).toNat, (a.2 - a.1 + 1).toNat)) hlex)
  intro b a h
  obtain ⟨l2, u2⟩ := b
  obtain ⟨lower, upper⟩ := a
  obtain ⟨h1, h2, _, _⟩ := idealPruneNext_decrease t lower upper numLeaves l2 u2 h
  have hb := tdiv_two_bounds (lower + upper)
  simp only [InvImage, Prod.lex_def]
  unfold idealPruneNext at h
  have hgt : ¬ lower > upper := by omega
  rw [if_neg hgt] at h
  simp only at h
  split at h
  · split at h
    · simp only [Option.some.injEq, Prod.mk.injEq] at h
      omega
    · exact absurd h (by simp)
  · split at h
    · simp only [Option.some.injEq, Prod.mk.injEq] at h
      omega
    · split at h
      · simp only [Option.some.injEq, Prod.mk.injEq] at h
        omega
      · exact absurd h (by simp)

/-- Enough fuel gives the value of the search, for all integer arguments. -/
theorem idealPruneFuel_complete (t : Quadtree) :
    ∀ lower upper numLeaves : Int,
      ∃ fuel, t.idealPruneFuel fuel lower upper numLeaves =
        some (t.idealPruneBounds lower upper numLeaves) := by
  intro lower upper numLeaves
  induction lower, upper, numLeaves using Quadtree.idealPruneBounds.induct t with
  | case1 lower upper numLeaves hgt =>
    refine ⟨1, ?_⟩
    rw [idealPruneFuel, if_pos hgt, idealPruneBounds, dif_pos hgt]
  | case2 lower upper hle tol heq ih =>
    obtain ⟨f, hf⟩ := ih
    refine ⟨f + 1, ?_⟩
    rw [idealPruneFuel, if_neg hle, idealPruneBounds, dif_neg hle]
    simp only [if_pos (show t.pruneSize ((lower + upper).tdiv 2) = tol from rfl)]
    rw [if_pos heq, if_pos heq]
    exact hf
  | case3 lower upper hle tol hneq =>
    refine ⟨1, ?_⟩
    rw [idealPruneFuel, if_neg hle, idealPruneBounds, dif_neg hle]
    simp only [if_pos (show t.pruneSize ((lower + upper).tdiv 2) = tol from rfl)]
    rw [if_neg hneq, if_neg hneq]
    rfl
  | case4 lower upper numLeaves hle tol hne hgt ih =>
    obtain ⟨f, hf⟩ := ih
    refine ⟨f + 1, ?_⟩
    rw [idealPruneFuel, if_neg hle, idealPruneBounds, dif_neg hle]
    simp only [if_neg (show ¬ t.pruneSize ((lower + upper).tdiv 2) = numLeaves from hne),
      if_pos (show t.pruneSize ((lower + upper).tdiv 2) > numLeaves from hgt)]
    exact hf
  | case5 lower upper numLeaves hle tol hne hngt hlt ih =>
    obtain ⟨f, hf⟩ := ih
    refine ⟨f + 1, ?_⟩
    rw [idealPruneFuel, if_neg hle, idealPruneBounds, dif_neg hle]
    simp only [if_neg (show ¬ t.pruneSize ((lower + upper).tdiv 2) = numLeaves from hne),
      if_neg (show ¬ t.pruneSize ((lower + upper).tdiv 2) > numLeaves from hngt),
      if_pos (show t.pruneSize ((lower + upper).tdiv 2) < numLeaves from hlt)]
    exact hf
  | case6 lower upper numLeaves hle tol hne hngt hnlt =>
    exfalso
    have a1 : ¬ t.pruneSize ((lower + upper).tdiv 2) = numLeaves := hne
    have a2 : ¬ t.pruneSize ((lower + upper).tdiv 2) > numLeaves := hngt
    have a3 : ¬ t.pruneSize ((lower + upper).tdiv 2) < numLeaves := hnlt
    omega

/-- The public search returns: enough fuel gives the value of `idealPrune`. -/
theorem idealPruneWithFuel_complete (t : Quadtree) (numLeaves : Int) :
    ∃ fuel, t.idealPruneWithFuel fuel numLeaves = some (t.idealPrune numLeaves) := by
  cases hroot : t.root with
  | none => exact ⟨0, by simp [idealPruneWithFuel, idealPrune, hroot]⟩
  | some root =>
    obtain ⟨f, hf⟩ := idealPruneFuel_complete t 0 (255 * 255 * 3) numLeaves
    exact ⟨f, by simp only [idealPruneWithFuel, idealPrune, hroot]; exact hf⟩

end Quadtree

/-- C22, as stated, fails on the code: on the 2 × 2 sample tree `idealPrune(0)` is 195076,
which is not in `[0, 195075]`. -/
theorem idealPrune_below_one_counterexample :
    sampleTree2.root = some sampleRoot2 ∧ (0 : Int) < 1 ∧
    ¬ (0 ≤ sampleTree2.idealPrune 0 ∧ sampleTree2.idealPrune 0 ≤ 195075) := by
  refine ⟨rfl, by decide, ?_⟩
  rw [Quadtree.idealPrune_budget_lt_one sampleTree2 sampleRoot2 rfl 0 (by decide)]
  decide

/-- C22, amended. Budget below one: for every non-empty tree and every `numLeaves < 1`,
`idealPrune(numLeaves)` does not fail (the search ends with a value) and returns
`3 × 255² + 1 = 195076`, the value one past the upper boundary of the search domain
`[0, 3 × 255²]`. -/
theorem idealPrune_below_one (t : Quadtree) (root : QuadtreeNode) (numLeaves : Int)
    (hroot : t.root = some root) (hn : numLeaves < 1) :
    t.idealPrune numLeaves = 3 * 255 ^ 2 + 1 ∧
    ∃ fuel, t.idealPruneWithFuel fuel numLeaves = some (3 * 255 ^ 2 + 1) := by
  have h := Quadtree.idealPrune_budget_lt_one t root hroot numLeaves hn
  have e : (3 * 255 ^ 2 + 1 : Int) = 195076 := by norm_num
  obtain ⟨f, hf⟩ := Quadtree.idealPruneWithFuel_complete t numLeaves
  rw [e]
  exact ⟨h, f, by rw [hf, h]⟩

theorem idealPrune_below_one_witness :
    (sampleTree4.root = some sampleRoot4 ∧ (-2 : Int) < 1) ∧
    (sampleTree4.idealPrune (-2) = 3 * 255 ^ 2 + 1 ∧
    ∃ fuel, sampleTree4.idealPruneWithFuel fuel (-2) = some (3 * 255 ^ 2 + 1)) :=
  ⟨by decide, idealPrune_below_one sampleTree4 sampleRoot4 (-2) rfl (by decide)⟩

/-- C23. The search of `idealPrune` terminates: for every tree and all integers `lower`,
`upper`, `numLeaves` with `0 ≤ lower` and `upper ≤ 195075`, a call
`idealPrune(lower, upper, numLeaves)` that recurses either strictly decreases `upper`
(also when it resets `lower` to 0) or keeps `upper` and strictly increases `lower`, and its
recursive call is again within `0 ≤ lower`, `upper ≤ 195075`; the relation between a call
and its recursive call is well founded; the call returns its value with enough fuel; and
so `idealPrune(n)` returns for every `n`. -/
theorem idealPrune_terminates (t : Quadtree) (lower upper numLeaves : Int)
    (hl : 0 ≤ lower) (hu : upper ≤ 195075) :
    (∀ l2 u2 : Int, t.idealPruneNext lower upper numLeaves = some (l2, u2) →
      (u2 < upper ∨ (u2 = upper ∧ lower < l2)) ∧ 0 ≤ l2 ∧ u2 ≤ 195075 ∧
      t.idealPruneBounds lower upper numLeaves = t.idealPruneBounds l2 u2 numLeaves ∧
      ∀ fuel, t.idealPruneFuel (fuel + 1) lower upper numLeaves =
        t.idealPruneFuel fuel l2 u2 numLeaves) ∧
    WellFounded (fun (b a : Int × Int) => t.idealPruneNext a.1 a.2 numLeaves = some b) ∧
    (∃ fuel, t.idealPruneFuel fuel lower upper numLeaves =
      some (t.idealPruneBounds lower upper numLeaves)) ∧
    (∀ n : Int, ∃ fuel, t.idealPruneWithFuel fuel n = some (t.idealPrune n)) := by
  refine ⟨?_, Quadtree.idealPruneNext_wellFounded t numLeaves,
    Quadtree.idealPruneFuel_complete t lower upper numLeaves,
    fun n => Quadtree.idealPruneWithFuel_complete t n⟩
  intro l2 u2 h
  obtain ⟨_, h2, h3, h4⟩ := Quadtree.idealPruneNext_decrease t lower upper numLeaves l2 u2 h
  exact ⟨h2, h3 hl, by omega, Quadtree.idealPruneBounds_of_next t lower upper numLeaves l2 u2 h,
    fun fuel => Quadtree.idealPruneFuel_of_next t fuel lower upper numLeaves l2 u2 h⟩

theorem idealPrune_terminates_witness :
    ((0 : Int) ≤ 0 ∧ (195075 : Int) ≤ 195075) ∧
    ((∀ l2 u2 : Int, sampleTree4.idealPruneNext 0 195075 4 = some (l2, u2) →
      (u2 < 195075 ∨ (u2 = 195075 ∧ 0 < l2)) ∧ 0 ≤ l2 ∧ u2 ≤ 195075 ∧
      sampleTree4.idealPruneBounds 0 195075 4 = sampleTree4.idealPruneBounds l2 u2 4 ∧
      ∀ fuel, sampleTree4.idealPruneFuel (fuel + 1) 0 195075 4 =
        sampleTree4.idealPruneFuel fuel l2 u2 4) ∧
    WellFounded (fun (b a : Int × Int) => sampleTree4.idealPruneNext a.1 a.2 4 = some b) ∧
    (∃ fuel, sampleTree4.idealPruneFuel fuel 0 195075 4 =
      some (sampleTree4.idealPruneBounds 0 195075 4)) ∧
    (∀ n : Int, ∃ fuel, sampleTree4.idealPruneWithFuel fuel n = some (sampleTree4.idealPrune n))) :=
  ⟨by decide, idealPrune_terminates sampleTree4 0 195075 4 (by decide) (by decide)⟩

